import Mathlib

/-!
Verification of the distributed branch-and-bound graph-coloring engine
(repository: leonardoevi/Graph-coloring).

The development shallowly embeds the C++ sources:
  * `src/src/graph.tpp`      — the two `graph` constructors (DIMACS file / random density),
  * `src/src/main.cpp`       — the MPI coordinator / worker control flow (`N = 49` variant),
  * `src/unnamed/part_000`   — the runtime-dimension variant of the same main program,
    including `send_solution`, `receive_solution` and both bound-listener threads.

The `solution` class itself (files `include/solution.h` / `solution.tpp`) is not part of
the provided sources; its branching rule `get_next`, its `is_final` predicate and the
initial value of the shared bound `colors_ub` are modelled from the specification
(§3, §4.2 of spec.md) and are marked as such in their doc comments.

Machine integers are modelled as `Nat`; the only place where 32-bit wrap-around
matters is the unsigned decrement in the DIMACS edge parser, modelled explicitly.
-/

namespace GC

/-- Message-tag constant from `main.cpp` line 16 / `part_000` line 14: `INITIAL_NODE = 1`. -/
def INITIAL_NODE : Nat := 1

/-- Message-tag constant from `main.cpp` line 17 / `part_000` line 15: `SOLUTION_FROM_WORKER = 2`. -/
def SOLUTION_FROM_WORKER : Nat := 2

/-- Constant from `main.cpp` line 18 / `part_000` line 16: `RETURN = 3`.  Used both as the
`DONE` message tag and as the value broadcast on the bound channel to terminate the
workers' listener threads. -/
def RETURN : Nat := 3

/-- The compile-time vertex count of `main.cpp` line 14: `constexpr unsigned int N = 49`. -/
def N : Nat := 49

/-- A graph as the engine sees it: a dimension and an adjacency predicate
(`graph::operator()(i,j) = m[i][j]`, `graph.tpp` lines 52-54). -/
structure graph where
  dim : Nat
  m : Nat → Nat → Bool

/-- A search node (`solution` object): the partial coloring vector, the number of
colors used so far and the next vertex to color (spec §3, SearchNode attributes). -/
structure solution where
  color : List Nat
  tot_colors : Nat
  next : Nat
deriving DecidableEq

/-- The empty search node: all colors `0`, `tot_colors = 0`, `next = 0`
(spec §3: "constructed empty (all zeros, tot_colors=0, next=0)"). -/
def emptySolution (g : graph) : solution :=
  ⟨List.replicate g.dim 0, 0, 0⟩

/-- Modelled from the spec: `is_final(): next == n` (spec §4.2); the implementation in
`solution.h`/`solution.tpp` is not among the provided sources. -/
def solution.is_final (g : graph) (s : solution) : Bool :=
  s.next == g.dim

/-- Modelled from the spec: the initial value of the process-wide upper bound
`solution::colors_ub` is `n + 1` (spec §3: "initialized to n+1"); the declaration in
`solution.h` is not among the provided sources. -/
def initial_colors_ub (g : graph) : Nat :=
  g.dim + 1

/-- Modelled from the spec: the forbidden set
`F ⊆ [1,k] = { color[j] : j < next ∧ E(next, j) }` (spec §4.2 step 1). -/
def solution.forbidden (g : graph) (s : solution) : List Nat :=
  ((List.range s.next).filter (fun j => g.m s.next j)).map (fun j => s.color.getD j 0)

/-- The child of `s` obtained by coloring vertex `s.next` with color `c` and setting
`tot_colors` to `k'` (spec §4.2 steps 2-3: `color[next]=c`, `next` incremented). -/
def mkChild (s : solution) (c k' : Nat) : solution :=
  ⟨s.color.set s.next c, k', s.next + 1⟩

/-- Modelled from the spec: `expand()` / `get_next()` (spec §4.2): for each color
`c ∈ [1,k] \ F` in ascending order a child reusing `c`; then, if `k+1 ≤ UB − 1`,
one child introducing the fresh color `k+1`.  The live upper bound read by the code
is passed as the argument `ub`.  The implementation in `solution.tpp` is not among
the provided sources. -/
def solution.get_next (g : graph) (ub : Nat) (s : solution) : List solution :=
  let k := s.tot_colors
  let F := s.forbidden g
  ((List.range' 1 k).filter (fun c => decide (c ∉ F))).map (fun c => mkChild s c k) ++
    (if k + 1 ≤ ub - 1 then [mkChild s (k + 1) (k + 1)] else [])

/-! ## SearchNode wire format (`part_000` lines 21-45)

`send_solution` packs a node as `n + 2` unsigned integers
`[color[0], …, color[n−1], tot_colors, next]` and sends the buffer in one call;
`receive_solution` unpacks the same layout. -/

/-- The buffer built by `send_solution` (`part_000` lines 21-32): the color vector
followed by `tot_colors` and `next`. -/
def send_solution (sol : solution) : List Nat :=
  sol.color ++ [sol.tot_colors, sol.next]

/-- The node rebuilt by `receive_solution` (`part_000` lines 34-45):
`color := buffer[0..dim)`, `tot_colors := buffer[dim]`, `next := buffer[dim+1]`. -/
def receive_solution (dim : Nat) (buffer : List Nat) : solution :=
  ⟨buffer.take dim, buffer.getD dim 0, buffer.getD (dim + 1) 0⟩

/-- C9: sending a SearchNode with `send_solution` and receiving it with
`receive_solution` yields an equal node, and the wire format is exactly
`n + 2` unsigned integers (`color[0..n)`, `tot_colors`, `next`). -/
theorem receive_send_solution (dim : Nat) (sol : solution)
    (hlen : sol.color.length = dim) :
    receive_solution dim (send_solution sol) = sol ∧
      (send_solution sol).length = dim + 2 := by
  constructor
  · unfold receive_solution send_solution
    cases sol with
    | mk color tot nxt =>
      simp only at hlen
      subst hlen
      simp only [solution.mk.injEq]
      refine ⟨List.take_left' rfl, ?_, ?_⟩
      · rw [List.getD_append_right _ _ _ _ le_rfl]
        simp
      · rw [List.getD_append_right _ _ _ _ (Nat.le_add_right _ _)]
        have h2 : color.length + 1 - color.length = 1 := by omega
        rw [h2]
        rfl
  · simp [send_solution, hlen]

/-! ## Graph construction (`graph.tpp`)

The adjacency matrix is `std::array<std::array<bool, dim>, dim> m`, value-initialized
to all `false`.  The file constructor (lines 2-34) processes each line: comments are
skipped, a `p edge nodes edges` line throws on mismatch, an `e u v` line decrements the
unsigned values `u`, `v` (wrapping at 0) and writes `m[u][v] = m[v][u] = true` with no
bounds check.  The random constructor (lines 36-50) fills the strict upper triangle
from a Bernoulli draw, mirrors it, and clears the diagonal. -/

/-- 2^32, the modulus of C++ `unsigned int` on the target platform. -/
def U32 : Nat := 4294967296

/-- The unsigned decrement `--u` applied by the file constructor to a 1-based
vertex id: wraps to `2^32 − 1` at `0`. -/
def decWrap (u : Nat) : Nat :=
  if u = 0 then U32 - 1 else u - 1

/-- A boolean adjacency matrix as a list of rows. -/
abbrev Mat := List (List Bool)

/-- The value-initialized matrix `m{}`: all entries `false`. -/
def emptyMat (dim : Nat) : Mat :=
  List.replicate dim (List.replicate dim false)

/-- Read entry `(i, j)`; out-of-range reads default to `false`. -/
def adjM (mat : Mat) (i j : Nat) : Bool :=
  (mat.getD i []).getD j false

/-- Write entry `(i, j) := b`.  `List.set` ignores out-of-range indices, so an
out-of-bounds write (undefined behavior in the C++) is modelled as a no-op; the
builder below flags it separately. -/
def matSet (mat : Mat) (i j : Nat) (b : Bool) : Mat :=
  mat.set i ((mat.getD i []).set j b)

/-- One already-tokenized line of the DIMACS-style input file, at the granularity the
constructor's `istringstream` extraction distinguishes: the leading token, and for
`p`/`e` lines the successfully extracted fields.  An `e` line whose integer extraction
fails, and any line with an unrecognized leading token, behave identically (skipped)
and are both `other`. -/
inductive DimacsLine where
  | comment
  | pline (format : String) (nodes edges : Nat)
  | eline (u v : Nat)
  | other
deriving DecidableEq

/-- The matrix under construction together with a flag recording whether some
`e` line produced an out-of-bounds write (`m[u][v]` with `u ≥ dim ∨ v ≥ dim`,
undefined behavior in the C++). -/
structure BuildSt where
  mat : Mat
  oob : Bool
deriving DecidableEq

/-- Process one input line as `graph::graph(const std::string&)` does
(`graph.tpp` lines 10-33): comments skipped, `p` lines checked against `dim`,
`e u v` lines decremented (unsigned wrap) and written symmetrically. -/
def applyLine (dim : Nat) (st : BuildSt) : DimacsLine → Except String BuildSt
  | .comment => .ok st
  | .pline format nodes _ =>
      if format ≠ "edge" ∨ nodes ≠ dim then .error "Error: Dimension mismatch in file"
      else .ok st
  | .eline u v =>
      let u' := decWrap u
      let v' := decWrap v
      .ok ⟨matSet (matSet st.mat u' v' true) v' u' true,
           st.oob || !(decide (u' < dim) && decide (v' < dim))⟩
  | .other => .ok st

/-- The file-based constructor `graph::graph(const std::string& file_path)` on an
already-tokenized input (`graph.tpp` lines 2-34). -/
def graphFromFile (dim : Nat) (lines : List DimacsLine) : Except String BuildSt :=
  lines.foldlM (applyLine dim) ⟨emptyMat dim, false⟩

/-- The random-density constructor `graph::graph(const double density)`
(`graph.tpp` lines 36-50), with the Bernoulli draws supplied as the oracle `dist`:
for each `i`, for each `j ∈ (i, dim)`, `m[i][j] = m[j][i] = dist i j`, then
`m[i][i] = false`. -/
def graphRandom (dim : Nat) (dist : Nat → Nat → Bool) : Mat :=
  (List.range dim).foldl
    (fun mat i =>
      matSet
        ((List.range' (i + 1) (dim - (i + 1))).foldl
          (fun mat j => matSet (matSet mat i j (dist i j)) j i (dist i j)) mat)
        i i false)
    (emptyMat dim)

theorem getD_set_ite {α : Type} (l : List α) (i j : Nat) (a d : α) :
    (l.set i a).getD j d = if i = j ∧ i < l.length then a else l.getD j d := by
  rw [List.getD_eq_getElem?_getD, List.getElem?_set]
  rcases eq_or_ne i j with rfl | hij
  · rcases Nat.lt_or_ge i l.length with hl | hl
    · simp [hl]
    · rw [if_pos rfl, if_neg (by omega)]
      rw [List.getD_eq_getElem?_getD, List.getElem?_eq_none (by omega)]
      simp [Nat.not_lt.2 hl]
  · rw [if_neg hij, if_neg (by tauto), List.getD_eq_getElem?_getD]

theorem adjM_matSet (mat : Mat) (i j x y : Nat) (b : Bool) :
    adjM (matSet mat i j b) x y =
      if x = i ∧ y = j ∧ i < mat.length ∧ j < (mat.getD i []).length then b
      else adjM mat x y := by
  unfold adjM matSet
  rw [getD_set_ite]
  rcases eq_or_ne i x with rfl | hx
  · rcases Nat.lt_or_ge i mat.length with hl | hl
    · rw [if_pos ⟨rfl, hl⟩, getD_set_ite]
      rcases eq_or_ne j y with rfl | hy
      · rcases Nat.lt_or_ge j (mat.getD i []).length with hj | hj
        · rw [if_pos ⟨rfl, hj⟩, if_pos ⟨rfl, rfl, hl, hj⟩]
        · rw [if_neg (by omega), if_neg (by omega)]
      · rw [if_neg (by tauto), if_neg (by tauto)]
    · rw [if_neg (by omega), if_neg (by omega)]
  · rw [if_neg (by tauto), if_neg (by tauto)]

/-- `matSet` preserves the shape of the matrix: the outer length and each row length. -/
theorem matSet_shape (mat : Mat) (i j : Nat) (b : Bool) :
    (matSet mat i j b).length = mat.length ∧
      ∀ r, ((matSet mat i j b).getD r []).length = (mat.getD r []).length := by
  refine ⟨by simp [matSet], fun r => ?_⟩
  unfold matSet
  rw [getD_set_ite]
  rcases eq_or_ne i r with rfl | hr
  · rcases Nat.lt_or_ge i mat.length with hl | hl
    · rw [if_pos ⟨rfl, hl⟩, List.length_set]
    · rw [if_neg (by omega)]
  · rw [if_neg (by tauto)]

/-- A matrix with `dim` rows, each of length `dim`. -/
def SquareMat (dim : Nat) (mat : Mat) : Prop :=
  mat.length = dim ∧ ∀ r, r < dim → (mat.getD r []).length = dim

/-- The adjacency relation is symmetric. -/
def SymmMat (mat : Mat) : Prop :=
  ∀ i j, adjM mat i j = adjM mat j i

/-- The adjacency relation has no self-loops. -/
def IrreflMat (mat : Mat) : Prop :=
  ∀ i, adjM mat i i = false

theorem getD_replicate_ite {α : Type} (n : Nat) (a : α) (i : Nat) (d : α) :
    (List.replicate n a).getD i d = if i < n then a else d := by
  rw [List.getD_eq_getElem?_getD, List.getElem?_replicate]
  split_ifs <;> rfl

theorem adjM_emptyMat (dim i j : Nat) : adjM (emptyMat dim) i j = false := by
  unfold adjM emptyMat
  rw [getD_replicate_ite]
  split_ifs
  · rw [getD_replicate_ite]
    split_ifs <;> rfl
  · rfl

theorem squareMat_emptyMat (dim : Nat) : SquareMat dim (emptyMat dim) := by
  refine ⟨by simp [emptyMat], fun r hr => ?_⟩
  unfold emptyMat
  rw [getD_replicate_ite, if_pos hr]
  simp

theorem squareMat_matSet (dim : Nat) (mat : Mat) (i j : Nat) (b : Bool)
    (h : SquareMat dim mat) : SquareMat dim (matSet mat i j b) := by
  obtain ⟨hlen, hrow⟩ := h
  obtain ⟨hl, hr⟩ := matSet_shape mat i j b
  exact ⟨hl.trans hlen, fun r hrd => (hr r).trans (hrow r hrd)⟩

/-- On a square matrix the in-bounds condition of `adjM_matSet` collapses to
`i < dim ∧ j < dim`. -/
theorem adjM_matSet_sq (dim : Nat) (mat : Mat) (i j x y : Nat) (b : Bool)
    (h : SquareMat dim mat) :
    adjM (matSet mat i j b) x y =
      if x = i ∧ y = j ∧ i < dim ∧ j < dim then b else adjM mat x y := by
  rw [adjM_matSet]
  obtain ⟨hlen, hrow⟩ := h
  rcases Nat.lt_or_ge i dim with hi | hi
  · rw [hrow i hi]
    rw [hlen]
  · rw [if_neg (by omega), if_neg (by omega)]

/-- Setting the symmetric pair `(a,b)` and `(b,a)` to the same value preserves
symmetry of a square matrix. -/
theorem symmMat_pairSet (dim : Nat) (mat : Mat) (a b : Nat) (c : Bool)
    (hsq : SquareMat dim mat) (hsym : SymmMat mat) :
    SymmMat (matSet (matSet mat a b c) b a c) := by
  intro x y
  have hsq1 := squareMat_matSet dim mat a b c hsq
  rw [adjM_matSet_sq dim _ b a x y c hsq1, adjM_matSet_sq dim _ b a y x c hsq1,
    adjM_matSet_sq dim _ a b x y c hsq, adjM_matSet_sq dim _ a b y x c hsq]
  split_ifs <;> first | rfl | tauto

/-- Setting an off-diagonal symmetric pair preserves irreflexivity. -/
theorem irreflMat_pairSet (mat : Mat) (a b : Nat) (c : Bool)
    (hab : a ≠ b) (hirr : IrreflMat mat) :
    IrreflMat (matSet (matSet mat a b c) b a c) := by
  intro x
  rw [adjM_matSet, adjM_matSet]
  rw [if_neg (by rintro ⟨rfl, rfl, -⟩; exact hab rfl),
    if_neg (by rintro ⟨rfl, rfl, -⟩; exact hab rfl)]
  exact hirr x

/-- A generic preservation principle for `foldlM` over `Except` with `applyLine`. -/
theorem foldlM_applyLine_preserve (P : BuildSt → Prop) (dim : Nat) (lines : List DimacsLine)
    (hstep : ∀ st l, l ∈ lines → P st → ∀ st', applyLine dim st l = .ok st' → P st') :
    ∀ st st', P st → lines.foldlM (applyLine dim) st = .ok st' → P st' := by
  induction lines with
  | nil =>
    intro st st' hP h
    simp only [List.foldlM] at h
    cases h
    exact hP
  | cons hd tl ih =>
    intro st st' hP h
    rw [List.foldlM_cons] at h
    cases happ : applyLine dim st hd with
    | error e =>
      rw [happ] at h
      exact absurd h (by intro hc; cases hc)
    | ok st1 =>
      rw [happ] at h
      exact ih (fun st l hl => hstep st l (List.mem_cons_of_mem _ hl)) st1 st'
        (hstep st hd (List.mem_cons_self _ _) hP st1 happ) h

theorem symmMat_diagSet (mat : Mat) (i : Nat) (c : Bool) (hsym : SymmMat mat) :
    SymmMat (matSet mat i i c) := by
  intro x y
  rw [adjM_matSet, adjM_matSet]
  split_ifs <;> first | rfl | tauto

theorem irreflMat_diagSetFalse (mat : Mat) (i : Nat) (hirr : IrreflMat mat) :
    IrreflMat (matSet mat i i false) := by
  intro x
  rw [adjM_matSet]
  split_ifs
  · rfl
  · exact hirr x

/-- A generic preservation principle for `List.foldl`. -/
theorem foldl_preserve {α β : Type} (P : β → Prop) (f : β → α → β) :
    ∀ (l : List α) (m : β), P m → (∀ m a, a ∈ l → P m → P (f m a)) → P (l.foldl f m) := by
  intro l
  induction l with
  | nil => intro m hm _; exact hm
  | cons hd tl ih =>
    intro m hm hstep
    rw [List.foldl_cons]
    exact ih (f m hd) (hstep m hd (List.mem_cons_self _ _) hm)
      (fun m a ha => hstep m a (List.mem_cons_of_mem _ ha))

theorem decWrap_inj (u v : Nat) (hu : u < U32) (hv : v < U32) (huv : u ≠ v) :
    decWrap u ≠ decWrap v := by
  unfold decWrap U32 at *
  split_ifs <;> omega

/-- Every successfully file-constructed matrix is square and symmetric
(`graph.tpp` lines 24-31: each `e` line writes both `m[u][v]` and `m[v][u]`). -/
theorem graphFromFile_symm (dim : Nat) (lines : List DimacsLine) (st : BuildSt)
    (h : graphFromFile dim lines = .ok st) :
    SquareMat dim st.mat ∧ SymmMat st.mat := by
  refine foldlM_applyLine_preserve (fun b => SquareMat dim b.mat ∧ SymmMat b.mat)
    dim lines ?_ _ st ⟨squareMat_emptyMat dim, fun i j => by rw [adjM_emptyMat, adjM_emptyMat]⟩ h
  intro b l _ hP st' happ
  cases l with
  | comment => cases happ; exact hP
  | other => cases happ; exact hP
  | pline format nodes edges =>
    simp only [applyLine] at happ
    split_ifs at happ
    cases happ
    exact hP
  | eline u v =>
    cases happ
    exact ⟨squareMat_matSet dim _ _ _ _ (squareMat_matSet dim _ _ _ _ hP.1),
      symmMat_pairSet dim _ _ _ _ hP.1 hP.2⟩

/-- A successfully file-constructed matrix is irreflexive provided no `e u v` line
carries `u = v` (the constructor itself never checks). -/
theorem graphFromFile_irrefl (dim : Nat) (lines : List DimacsLine) (st : BuildSt)
    (hl : ∀ u v, DimacsLine.eline u v ∈ lines → u ≠ v ∧ u < U32 ∧ v < U32)
    (h : graphFromFile dim lines = .ok st) :
    IrreflMat st.mat := by
  refine foldlM_applyLine_preserve (fun b => IrreflMat b.mat)
    dim lines ?_ _ st (fun i => adjM_emptyMat dim i i) h
  intro b l hmem hP st' happ
  cases l with
  | comment => cases happ; exact hP
  | other => cases happ; exact hP
  | pline format nodes edges =>
    simp only [applyLine] at happ
    split_ifs at happ
    cases happ
    exact hP
  | eline u v =>
    cases happ
    obtain ⟨huv, hu, hv⟩ := hl u v hmem
    exact irreflMat_pairSet _ _ _ _ (decWrap_inj u v hu hv huv) hP

/-- The random-density constructor always yields a square, symmetric, irreflexive
matrix (`graph.tpp` lines 36-50). -/
theorem graphRandom_symm_irrefl (dim : Nat) (dist : Nat → Nat → Bool) :
    SquareMat dim (graphRandom dim dist) ∧ SymmMat (graphRandom dim dist) ∧
      IrreflMat (graphRandom dim dist) := by
  unfold graphRandom
  refine foldl_preserve (fun m => SquareMat dim m ∧ SymmMat m ∧ IrreflMat m) _ _ _
    ⟨squareMat_emptyMat dim, fun i j => by rw [adjM_emptyMat, adjM_emptyMat],
      fun i => adjM_emptyMat dim i i⟩ ?_
  intro m i _ hP
  have hinner : SquareMat dim ((List.range' (i + 1) (dim - (i + 1))).foldl
      (fun mat j => matSet (matSet mat i j (dist i j)) j i (dist i j)) m) ∧
      SymmMat ((List.range' (i + 1) (dim - (i + 1))).foldl
      (fun mat j => matSet (matSet mat i j (dist i j)) j i (dist i j)) m) ∧
      IrreflMat ((List.range' (i + 1) (dim - (i + 1))).foldl
      (fun mat j => matSet (matSet mat i j (dist i j)) j i (dist i j)) m) := by
    refine foldl_preserve (fun m => SquareMat dim m ∧ SymmMat m ∧ IrreflMat m) _ _ _ hP ?_
    intro m' j hj hP'
    have hij : i ≠ j := by
      have := List.mem_range'_1.1 hj
      omega
    exact ⟨squareMat_matSet dim _ _ _ _ (squareMat_matSet dim _ _ _ _ hP'.1),
      symmMat_pairSet dim _ _ _ _ hP'.1 hP'.2.1,
      irreflMat_pairSet _ _ _ _ hij hP'.2.2⟩
  exact ⟨squareMat_matSet dim _ _ _ _ hinner.1, symmMat_diagSet _ _ _ hinner.2.1,
    irreflMat_diagSetFalse _ _ hinner.2.2⟩

/-- Under the documented precondition `1 ≤ u ≤ dim ∧ 1 ≤ v ≤ dim` on every `e` line,
the file constructor performs only in-bounds writes. -/
theorem graphFromFile_oob_free (dim : Nat) (lines : List DimacsLine) (st : BuildSt)
    (hl : ∀ u v, DimacsLine.eline u v ∈ lines → 1 ≤ u ∧ u ≤ dim ∧ 1 ≤ v ∧ v ≤ dim)
    (h : graphFromFile dim lines = .ok st) :
    st.oob = false := by
  refine foldlM_applyLine_preserve (fun b => b.oob = false) dim lines ?_ _ st rfl h
  intro b l hmem hP st' happ
  cases l with
  | comment => cases happ; exact hP
  | other => cases happ; exact hP
  | pline format nodes edges =>
    simp only [applyLine] at happ
    split_ifs at happ
    cases happ
    exact hP
  | eline u v =>
    cases happ
    obtain ⟨hu1, hu2, hv1, hv2⟩ := hl u v hmem
    have hu' : decWrap u < dim := by unfold decWrap U32; split_ifs <;> omega
    have hv' : decWrap v < dim := by unfold decWrap U32; split_ifs <;> omega
    simp [hP, hu', hv']

/-! ## Coordinator Phase A (`main.cpp` lines 66-111 / `part_000` lines 116-171)

The rank-0 process runs a BFS over `solution` nodes in a FIFO `std::queue`
(`front`/`pop` at the head, `push` at the tail), pruning against `colors_ub`,
recording improving final nodes, and breaking out when an expansion would make the
queue longer than `size − 1` workers.  During Phase A no listener thread exists, so
`colors_ub` is exactly the loop-local bound.  Queues are modelled as lists with the
head at the front; `push` appends at the tail. -/

/-- The outcome of one iteration of the Phase A `while` loop. -/
inductive PhaseAOut where
  | more (q : List solution) (ub : Nat) (best : solution)
  | brk (q : List solution) (ub : Nat) (best : solution)
  | empty (ub : Nat) (best : solution)
deriving DecidableEq

/-- The upper bound carried by a `PhaseAOut`. -/
def PhaseAOut.ubOf : PhaseAOut → Nat
  | .more _ ub _ => ub
  | .brk _ ub _ => ub
  | .empty ub _ => ub

/-- One iteration of the Phase A loop (`main.cpp` lines 74-104): pop the head; a
non-final node is pruned when `tot_colors ≥ colors_ub`, otherwise expanded, with the
children enqueued only if `queue.size + children.size ≤ W`, else the popped node is
pushed back (at the tail — `std::queue::push` appends) and the loop breaks; a final
node strictly better than `colors_ub` becomes the new bound and incumbent. -/
def phaseAStep (g : graph) (W : Nat) : List solution → Nat → solution → PhaseAOut
  | [], ub, best => .empty ub best
  | curr :: rest, ub, best =>
    if curr.is_final g = false then
      if ub ≤ curr.tot_colors then .more rest ub best
      else
        let tmp := curr.get_next g ub
        if rest.length + tmp.length ≤ W then .more (rest ++ tmp) ub best
        else .brk (rest ++ [curr]) ub best
    else
      if curr.tot_colors < ub then .more rest curr.tot_colors curr
      else .more rest ub best

/-- The result of the whole Phase A loop: the queue emptied (line 107 path), or the
loop broke with a nonempty frontier. -/
inductive PhaseAResult where
  | exhausted (ub : Nat) (best : solution)
  | frontier (q : List solution) (ub : Nat) (best : solution)
deriving DecidableEq

/-- The Phase A loop, driven by `phaseAStep`, with explicit fuel
(`none` = fuel ran out; the C++ loop's termination is not claimed here). -/
def phaseALoop (g : graph) (W : Nat) : Nat → List solution → Nat → solution →
    Option PhaseAResult
  | fuel, q, ub, best =>
    match phaseAStep g W q ub best with
    | .empty ub' best' => some (.exhausted ub' best')
    | .brk q' ub' best' => some (.frontier q' ub' best')
    | .more q' ub' best' =>
      match fuel with
      | 0 => none
      | fuel' + 1 => phaseALoop g W fuel' q' ub' best'

/-- The Phase A entry state (`main.cpp` lines 67-72): a queue holding one empty
solution, the initial bound, and a default incumbent. -/
def phaseARun (g : graph) (W fuel : Nat) : Option PhaseAResult :=
  phaseALoop g W fuel [emptySolution g] (initial_colors_ub g) (emptySolution g)

/-- The dispatch messages of Phase B (`main.cpp` lines 126-138): frontier node `j`
(0-based) goes to rank `j + 1` with tag `INITIAL_NODE`; every remaining rank up to
`P − 1` gets a dummy solution with tag `0`. -/
def dispatchMsgs (P : Nat) (g : graph) (q : List solution) : List (Nat × Nat × solution) :=
  (q.enum.map (fun p => (p.1 + 1, INITIAL_NODE, p.2))) ++
    ((List.range' (q.length + 1) (P - 1 - q.length)).map
      (fun i => (i, 0, emptySolution g)))

/-- What the coordinator does right after Phase A (`main.cpp` lines 106-140): an
empty queue prints the incumbent and calls `MPI_Abort(MPI_COMM_WORLD, 69)`; a
nonempty frontier is dispatched. -/
inductive CoordOutcome where
  | abort (printed : solution) (code : Nat)
  | dispatch (msgs : List (Nat × Nat × solution))
deriving DecidableEq

/-- The coordinator control flow from entry through Phase B
(`main.cpp` lines 66-140). -/
def coordRun (g : graph) (P fuel : Nat) : Option CoordOutcome :=
  match phaseARun g (P - 1) fuel with
  | none => none
  | some (.exhausted _ best) => some (.abort best 69)
  | some (.frontier q _ _) => some (.dispatch (dispatchMsgs P g q))

/-! ## Worker DFS (`main.cpp` lines 169-205 / `part_000` lines 236-283)

A worker that received an `INITIAL_NODE` message runs a DFS over a `std::stack`
(top = list head).  Children are pushed in reverse order, so the stack after the
pushes is `children ++ rest`.  An improving final node updates the local
`colors_ub`, becomes `best_so_far` and is sent to rank 0 with tag
`SOLUTION_FROM_WORKER`.  One loop iteration is modelled atomically: the shared-bound
interleaving is treated in the abstract system below. -/

/-- Worker DFS thread state: the stack, the process-local `colors_ub`, the local
incumbent and the list of solutions sent so far. -/
structure WDFSState where
  stack : List solution
  ub : Nat
  best : solution
  sends : List solution
deriving DecidableEq

/-- One iteration of the worker DFS loop (`main.cpp` lines 178-205); on an empty
stack the state is returned unchanged. -/
def workerDFSIter (g : graph) : WDFSState → WDFSState
  | ⟨[], ub, best, sends⟩ => ⟨[], ub, best, sends⟩
  | ⟨curr :: rest, ub, best, sends⟩ =>
    if curr.is_final g = false then
      if ub ≤ curr.tot_colors then ⟨rest, ub, best, sends⟩
      else ⟨curr.get_next g ub ++ rest, ub, best, sends⟩
    else
      if curr.tot_colors < ub then ⟨rest, curr.tot_colors, curr, sends ++ [curr]⟩
      else ⟨rest, ub, best, sends⟩

/-- The worker DFS loop with explicit fuel, stopping on an empty stack. -/
def workerDFSLoop (g : graph) : Nat → WDFSState → Option WDFSState
  | _, ⟨[], ub, best, sends⟩ => some ⟨[], ub, best, sends⟩
  | 0, _ => none
  | fuel + 1, st => workerDFSLoop g fuel (workerDFSIter g st)

/-- An event a worker's main thread emits towards the coordinator, in program order. -/
inductive WEvent where
  | sendImproved (s : solution)
  | sendDone
  | barrier
deriving DecidableEq

/-- The worker main-thread control flow (`main.cpp` lines 154-227) as its event
trace: after the single initial receive, a worker whose message tag was not
`INITIAL_NODE` skips the search; either way it then sends one `RETURN`-tagged
message to rank 0 (line 220) and enters `MPI_Barrier` (line 223). -/
def workerRun (g : graph) (fuel : Nat) (tag : Nat) (initNode : solution) :
    Option (List WEvent) :=
  if tag ≠ INITIAL_NODE then some [.sendDone, .barrier]
  else
    match workerDFSLoop g fuel ⟨[initNode], initial_colors_ub g, emptySolution g, []⟩ with
    | none => none
    | some st => some (st.sends.map .sendImproved ++ [.sendDone, .barrier])

/-! ## The two bound-listener threads -/

/-- One iteration of `listen_for_ub_updates_from_root` (`main.cpp` lines 239-256):
the worker-side listener receives the broadcast value `v`; `v = RETURN` exits the
thread (`none`); otherwise `colors_ub` is lowered iff `v < colors_ub`. -/
def listenRootStep (ub : Nat) (v : Nat) : Option Nat :=
  if v = RETURN then none
  else if v < ub then some v else some ub

/-- Coordinator listener state (`listen_for_ub_updates_from_workers`,
`main.cpp` lines 258-292): local `worker_done` counter plus the process `colors_ub`
and the `best` incumbent the final print uses. -/
structure CoordListenState where
  ub : Nat
  best : solution
  workerDone : Nat
deriving DecidableEq

/-- One iteration of the coordinator listener loop (`main.cpp` lines 263-285):
count `RETURN` tags; on `SOLUTION_FROM_WORKER`, accept a strictly better solution
(update `colors_ub` and `best`, broadcast the new bound — returned as the second
component) and discard stale ones. -/
def coordListenStep (st : CoordListenState) (tag : Nat) (msg : solution) :
    CoordListenState × List Nat :=
  let st1 := if tag = RETURN then ⟨st.ub, st.best, st.workerDone + 1⟩ else st
  if tag = SOLUTION_FROM_WORKER then
    if msg.tot_colors < st1.ub then (⟨msg.tot_colors, msg, st1.workerDone⟩, [msg.tot_colors])
    else (st1, [])
  else (st1, [])

/-! ## Concrete graphs used as witnesses -/

/-- The edgeless graph on 2 vertices. -/
def gEmpty2 : graph := ⟨2, fun _ _ => false⟩

/-- The edgeless graph on 5 vertices. -/
def gEmpty5 : graph := ⟨5, fun _ _ => false⟩

/-- The complete graph on 2 vertices. -/
def gK2 : graph := ⟨2, fun i j => (i == 0 && j == 1) || (i == 1 && j == 0)⟩

/-! ## Claims C2-C10 -/

/-- C2: the termination sentinel the coordinator broadcasts is the constant
`RETURN = 3`.  The claim that it is strictly larger than `n` fails: with the
compile-time `N = 49` of `main.cpp` the sentinel satisfies `RETURN ≤ N`, so it
coincides with the feasible color count `3 ∈ [0, n]`; the worker-side listener
treats an incoming genuine bound value `3` as the exit signal (`none`), while it
handles the neighboring value `4` as an ordinary update. -/
theorem C2_sentinel_collision :
    RETURN = 3 ∧ RETURN ≤ N ∧
      listenRootStep (N + 1) RETURN = none ∧
      listenRootStep (N + 1) (RETURN + 1) = some (RETURN + 1) := by
  refine ⟨rfl, by decide, rfl, by decide⟩

/-- C4 counterexample: the claim that only the listener thread writes `colors_ub`
fails on the code at a concrete input.  A worker's main DFS thread popping the
final node `[1,1]` under bound `3` stores `1` (`main.cpp` line 199), and the
coordinator's Phase A main thread popping the final node `[1,2]` under bound `3`
stores `2` (`main.cpp` line 100). -/
theorem C4_counterexample :
    (workerDFSIter gEmpty2 ⟨[⟨[1, 1], 1, 2⟩], 3, emptySolution gEmpty2, []⟩).ub = 1 ∧
      (1 : Nat) ≠ 3 ∧
      (phaseAStep gK2 1 [⟨[1, 2], 2, 2⟩] 3 (emptySolution gK2)).ubOf = 2 ∧
      (2 : Nat) ≠ 3 := by
  refine ⟨by decide, by decide, by decide, by decide⟩

/-- C4 amended: besides the two listener threads, the main thread of each process
writes `colors_ub` — but only when recording a strictly improving final node; the
two listeners' writes are characterized alongside. -/
theorem C4_amended_ub_writers :
    (∀ g st, (workerDFSIter g st).ub ≠ st.ub →
      ∃ curr rest, st.stack = curr :: rest ∧ curr.is_final g = true ∧
        curr.tot_colors < st.ub ∧ (workerDFSIter g st).ub = curr.tot_colors) ∧
    (∀ g W q ub best, (phaseAStep g W q ub best).ubOf ≠ ub →
      ∃ curr rest, q = curr :: rest ∧ curr.is_final g = true ∧
        curr.tot_colors < ub ∧ (phaseAStep g W q ub best).ubOf = curr.tot_colors) ∧
    (∀ ub v ub', listenRootStep ub v = some ub' → ub' = ub ∨ (v < ub ∧ ub' = v)) ∧
    (∀ st tag msg, (coordListenStep st tag msg).1.ub = st.ub ∨
      (tag = SOLUTION_FROM_WORKER ∧ msg.tot_colors < st.ub ∧
        (coordListenStep st tag msg).1.ub = msg.tot_colors)) := by
  refine ⟨?_, ?_, ?_, ?_⟩
  · intro g st
    match st with
    | ⟨[], ub, best, sends⟩ => intro h; exact absurd rfl h
    | ⟨curr :: rest, ub, best, sends⟩ =>
      simp only [workerDFSIter]
      split_ifs with h1 h2 h3 <;> intro h
      · exact absurd rfl h
      · exact absurd rfl h
      · exact ⟨curr, rest, rfl, by revert h1; cases curr.is_final g <;> simp, h3, rfl⟩
      · exact absurd rfl h
  · intro g W q ub best
    match q with
    | [] => intro h; exact absurd rfl h
    | curr :: rest =>
      simp only [phaseAStep]
      split_ifs with h1 h2 h3 h4 <;> simp only [PhaseAOut.ubOf] <;> intro h
      · exact absurd rfl h
      · exact absurd rfl h
      · exact absurd rfl h
      · exact ⟨curr, rest, rfl, by revert h1; cases curr.is_final g <;> simp, h4, rfl⟩
      · exact absurd rfl h
  · intro ub v ub' h
    unfold listenRootStep at h
    split_ifs at h with h1 h2
    · cases h
      exact Or.inr ⟨h2, rfl⟩
    · cases h
      exact Or.inl rfl
  · intro st tag msg
    unfold coordListenStep
    dsimp only
    rcases eq_or_ne tag SOLUTION_FROM_WORKER with h2 | h2
    · have hne : tag ≠ RETURN := by rw [h2]; decide
      rw [if_neg hne, if_pos h2]
      rcases Nat.lt_or_ge msg.tot_colors st.ub with hlt | hge
      · rw [if_pos hlt]
        exact Or.inr ⟨h2, hlt, rfl⟩
      · rw [if_neg (by omega)]
        exact Or.inl rfl
    · rw [if_neg h2]
      split_ifs <;> exact Or.inl rfl

theorem C4_amended_ub_writers_witness :
    ∃ curr rest,
      (⟨[⟨[1, 1], 1, 2⟩], 3, emptySolution gEmpty2, []⟩ : WDFSState).stack = curr :: rest ∧
      curr.is_final gEmpty2 = true ∧ curr.tot_colors < 3 ∧
      (workerDFSIter gEmpty2 ⟨[⟨[1, 1], 1, 2⟩], 3, emptySolution gEmpty2, []⟩).ub =
        curr.tot_colors :=
  C4_amended_ub_writers.1 gEmpty2 ⟨[⟨[1, 1], 1, 2⟩], 3, emptySolution gEmpty2, []⟩ (by decide)

/-- C5: when Phase A empties its frontier, the coordinator prints the incumbent and
aborts the whole group with exit code `69` (nonzero, distinguished), and no dispatch
message is produced. -/
theorem C5_no_parallelism (g : graph) (P fuel ub : Nat) (best : solution)
    (h : phaseARun g (P - 1) fuel = some (.exhausted ub best)) :
    coordRun g P fuel = some (.abort best 69) ∧ (69 : Nat) ≠ 0 ∧
      ∀ msgs, coordRun g P fuel ≠ some (.dispatch msgs) := by
  unfold coordRun
  rw [h]
  exact ⟨rfl, by decide, fun msgs hc => by cases hc⟩

theorem C5_no_parallelism_witness :
    coordRun gK2 2 20 = some (.abort ⟨[1, 2], 2, 2⟩ 69) ∧ (69 : Nat) ≠ 0 ∧
      ∀ msgs, coordRun gK2 2 20 ≠ some (.dispatch msgs) :=
  C5_no_parallelism gK2 2 20 2 ⟨[1, 2], 2, 2⟩ (by decide)

/-- C6 counterexample: at the break iteration of a concrete Phase A run
(edgeless graph on 5 vertices, `W = 3`), the popped node `[1,2,·,·,·]` whose
expansion overflows is pushed at the *tail* of the FIFO frontier, so the head of
the resulting frontier — the first node dispatched in Phase B — is a different
node, refuting "pushes u back at the head … u is the first node dispatched". -/
theorem C6_counterexample :
    phaseAStep gEmpty5 3
        [⟨[1, 2, 0, 0, 0], 2, 2⟩, ⟨[1, 1, 1, 0, 0], 1, 3⟩, ⟨[1, 1, 2, 0, 0], 2, 3⟩]
        6 (emptySolution gEmpty5) =
      .brk [⟨[1, 1, 1, 0, 0], 1, 3⟩, ⟨[1, 1, 2, 0, 0], 2, 3⟩, ⟨[1, 2, 0, 0, 0], 2, 2⟩]
        6 (emptySolution gEmpty5) ∧
    ([(⟨[1, 1, 1, 0, 0], 1, 3⟩ : solution), ⟨[1, 1, 2, 0, 0], 2, 3⟩,
        ⟨[1, 2, 0, 0, 0], 2, 2⟩].head? ≠ some ⟨[1, 2, 0, 0, 0], 2, 2⟩) ∧
    ((dispatchMsgs 4 gEmpty5
        [⟨[1, 1, 1, 0, 0], 1, 3⟩, ⟨[1, 1, 2, 0, 0], 2, 3⟩, ⟨[1, 2, 0, 0, 0], 2, 2⟩]).head? ≠
      some (1, INITIAL_NODE, ⟨[1, 2, 0, 0, 0], 2, 2⟩)) ∧
    phaseARun gEmpty5 3 50 =
      some (.frontier
        [⟨[1, 1, 1, 0, 0], 1, 3⟩, ⟨[1, 1, 2, 0, 0], 2, 3⟩, ⟨[1, 2, 0, 0, 0], 2, 2⟩]
        6 (emptySolution gEmpty5)) := by
  refine ⟨by decide, by decide, by decide, by decide⟩

/-- C6 amended: when the coordinator pops a non-final node `curr` whose children
would overflow the frontier, it pushes `curr` back at the *tail* of the FIFO
frontier and stops Phase A, so `curr` is the *last* node dispatched in Phase B. -/
theorem C6_amended_push_back (g : graph) (W : Nat) (curr : solution)
    (rest q' : List solution) (ub ub' : Nat) (best best' : solution)
    (h : phaseAStep g W (curr :: rest) ub best = .brk q' ub' best') :
    q' = rest ++ [curr] ∧ curr.is_final g = false ∧ curr.tot_colors < ub ∧
      W < rest.length + (curr.get_next g ub).length ∧
      q'.getLast? = some curr := by
  simp only [phaseAStep] at h
  split_ifs at h with h1 h2 h3
  cases h
  exact ⟨rfl, h1, by omega, by omega, List.getLast?_concat _⟩

theorem C6_amended_push_back_witness :
    ([(⟨[1, 1, 1, 0, 0], 1, 3⟩ : solution), ⟨[1, 1, 2, 0, 0], 2, 3⟩,
        ⟨[1, 2, 0, 0, 0], 2, 2⟩] =
      [(⟨[1, 1, 1, 0, 0], 1, 3⟩ : solution), ⟨[1, 1, 2, 0, 0], 2, 3⟩] ++
        [⟨[1, 2, 0, 0, 0], 2, 2⟩]) ∧
    (solution.is_final gEmpty5 ⟨[1, 2, 0, 0, 0], 2, 2⟩ = false) ∧ (2 : Nat) < 6 ∧
      (3 : Nat) < [(⟨[1, 1, 1, 0, 0], 1, 3⟩ : solution), ⟨[1, 1, 2, 0, 0], 2, 3⟩].length +
        (solution.get_next gEmpty5 6 ⟨[1, 2, 0, 0, 0], 2, 2⟩).length ∧
      ([(⟨[1, 1, 1, 0, 0], 1, 3⟩ : solution), ⟨[1, 1, 2, 0, 0], 2, 3⟩,
          ⟨[1, 2, 0, 0, 0], 2, 2⟩].getLast? = some ⟨[1, 2, 0, 0, 0], 2, 2⟩) := by
  have h := C6_amended_push_back gEmpty5 3 ⟨[1, 2, 0, 0, 0], 2, 2⟩
    [⟨[1, 1, 1, 0, 0], 1, 3⟩, ⟨[1, 1, 2, 0, 0], 2, 3⟩]
    [⟨[1, 1, 1, 0, 0], 1, 3⟩, ⟨[1, 1, 2, 0, 0], 2, 3⟩, ⟨[1, 2, 0, 0, 0], 2, 2⟩]
    6 6 (emptySolution gEmpty5) (emptySolution gEmpty5) (by decide)
  exact ⟨h.1, h.2.1, h.2.2.1, h.2.2.2.1, h.2.2.2.2⟩

/-- C7: whatever tag its single initial message carried, a worker's event trace is
some improvement sends followed by exactly one `DONE` send and then the barrier. -/
theorem C7_single_done (g : graph) (fuel tag : Nat) (initNode : solution)
    (evs : List WEvent) (h : workerRun g fuel tag initNode = some evs) :
    (∃ pre, evs = pre ++ [WEvent.sendDone, WEvent.barrier] ∧
      ∀ e ∈ pre, ∃ s, e = WEvent.sendImproved s) ∧
      evs.count WEvent.sendDone = 1 ∧ evs.count WEvent.barrier = 1 := by
  have hx : ∃ pre, evs = pre ++ [WEvent.sendDone, WEvent.barrier] ∧
      ∀ e ∈ pre, ∃ s, e = WEvent.sendImproved s := by
    unfold workerRun at h
    split_ifs at h with h1
    · cases h
      exact ⟨[], rfl, by simp⟩
    · cases hloop : workerDFSLoop g fuel
        ⟨[initNode], initial_colors_ub g, emptySolution g, []⟩ with
      | none => rw [hloop] at h; cases h
      | some st =>
        rw [hloop] at h
        cases h
        refine ⟨st.sends.map .sendImproved, rfl, ?_⟩
        intro e he
        obtain ⟨s, _, rfl⟩ := List.mem_map.1 he
        exact ⟨s, rfl⟩
  obtain ⟨pre, rfl, hpre⟩ := hx
  have hd : pre.count WEvent.sendDone = 0 := by
    rw [List.count_eq_zero]
    intro hc
    obtain ⟨s, hs⟩ := hpre _ hc
    cases hs
  have hb : pre.count WEvent.barrier = 0 := by
    rw [List.count_eq_zero]
    intro hc
    obtain ⟨s, hs⟩ := hpre _ hc
    cases hs
  refine ⟨⟨pre, rfl, hpre⟩, ?_, ?_⟩
  · rw [List.count_append, hd]
    rfl
  · rw [List.count_append, hb]
    rfl

theorem C7_single_done_witness :
    ((∃ pre, [WEvent.sendImproved ⟨[1, 1], 1, 2⟩, WEvent.sendDone, WEvent.barrier] =
        pre ++ [WEvent.sendDone, WEvent.barrier] ∧
        ∀ e ∈ pre, ∃ s, e = WEvent.sendImproved s) ∧
      List.count WEvent.sendDone
        [WEvent.sendImproved ⟨[1, 1], 1, 2⟩, WEvent.sendDone, WEvent.barrier] = 1 ∧
      List.count WEvent.barrier
        [WEvent.sendImproved ⟨[1, 1], 1, 2⟩, WEvent.sendDone, WEvent.barrier] = 1) ∧
    ((∃ pre, [WEvent.sendDone, WEvent.barrier] = pre ++ [WEvent.sendDone, WEvent.barrier] ∧
        ∀ e ∈ pre, ∃ s, e = WEvent.sendImproved s) ∧
      List.count WEvent.sendDone [WEvent.sendDone, WEvent.barrier] = 1 ∧
      List.count WEvent.barrier [WEvent.sendDone, WEvent.barrier] = 1) :=
  ⟨C7_single_done gEmpty2 20 INITIAL_NODE ⟨[1, 0], 1, 1⟩ _ (by decide),
   C7_single_done gEmpty2 20 0 (emptySolution gEmpty2) _ (by decide)⟩

theorem receive_send_solution_witness :
    receive_solution 2 (send_solution ⟨[1, 2], 2, 2⟩) = (⟨[1, 2], 2, 2⟩ : solution) ∧
      (send_solution ⟨[1, 2], 2, 2⟩).length = 2 + 2 :=
  receive_send_solution 2 ⟨[1, 2], 2, 2⟩ rfl

/-- C8 counterexample: the file constructor accepts the input line `e 1 1`
(a self-loop) without error and produces `adj(0,0) = true`, refuting
irreflexivity of every successfully constructed graph. -/
theorem C8_counterexample :
    graphFromFile 2 [DimacsLine.eline 1 1] =
        Except.ok ⟨[[true, false], [false, false]], false⟩ ∧
      adjM [[true, false], [false, false]] 0 0 = true := by
  exact ⟨rfl, rfl⟩

/-- C8 amended: every successfully constructed matrix is symmetric; the
file-constructed matrix is moreover irreflexive provided no `e u v` input line has
`u = v`; the random constructor is always symmetric and irreflexive. -/
theorem C8_amended_adjacency :
    (∀ dim lines st, graphFromFile dim lines = Except.ok st → SymmMat st.mat) ∧
    (∀ dim lines st,
      (∀ u v, DimacsLine.eline u v ∈ lines → u ≠ v ∧ u < U32 ∧ v < U32) →
      graphFromFile dim lines = Except.ok st → IrreflMat st.mat) ∧
    (∀ dim dist, SymmMat (graphRandom dim dist) ∧ IrreflMat (graphRandom dim dist)) :=
  ⟨fun dim lines st h => (graphFromFile_symm dim lines st h).2,
   graphFromFile_irrefl,
   fun dim dist => ⟨(graphRandom_symm_irrefl dim dist).2.1,
     (graphRandom_symm_irrefl dim dist).2.2⟩⟩

theorem C8_amended_adjacency_witness :
    SymmMat [[false, true], [true, false]] ∧ IrreflMat [[false, true], [true, false]] ∧
      SymmMat (graphRandom 2 (fun _ _ => true)) ∧
      IrreflMat (graphRandom 2 (fun _ _ => true)) := by
  have hmem : ∀ u v, DimacsLine.eline u v ∈ [DimacsLine.eline 1 2] →
      u ≠ v ∧ u < U32 ∧ v < U32 := by
    intro u v hm
    rw [List.mem_singleton] at hm
    injection hm with h1 h2
    subst h1
    subst h2
    exact ⟨by decide, by decide, by decide⟩
  exact ⟨C8_amended_adjacency.1 2 [DimacsLine.eline 1 2]
      ⟨[[false, true], [true, false]], false⟩ rfl,
    C8_amended_adjacency.2.1 2 [DimacsLine.eline 1 2]
      ⟨[[false, true], [true, false]], false⟩ hmem rfl,
    (C8_amended_adjacency.2.2 2 (fun _ _ => true)).1,
    (C8_amended_adjacency.2.2 2 (fun _ _ => true)).2⟩

/-- C10: the file constructor's `e`-line writes are in bounds exactly under the
precondition `1 ≤ u ≤ dim ∧ 1 ≤ v ≤ dim`; the concrete line `e 0 1` (unsigned
decrement wraps `0` to `2^32 − 1`) produces an out-of-bounds write. -/
theorem C10_bounds :
    (∀ dim lines st,
      (∀ u v, DimacsLine.eline u v ∈ lines → 1 ≤ u ∧ u ≤ dim ∧ 1 ≤ v ∧ v ≤ dim) →
      graphFromFile dim lines = Except.ok st → st.oob = false) ∧
    graphFromFile 2 [DimacsLine.eline 0 1] = Except.ok ⟨emptyMat 2, true⟩ :=
  ⟨graphFromFile_oob_free, rfl⟩

theorem C10_bounds_witness :
    (BuildSt.mk [[false, true], [true, false]] false).oob = false := by
  have hmem : ∀ u v, DimacsLine.eline u v ∈ [DimacsLine.eline 1 2] →
      1 ≤ u ∧ u ≤ 2 ∧ 1 ≤ v ∧ v ≤ 2 := by
    intro u v hm
    rw [List.mem_singleton] at hm
    injection hm with h1 h2
    subst h1
    subst h2
    exact ⟨by decide, by decide, by decide, by decide⟩
  exact C10_bounds.1 2 [DimacsLine.eline 1 2] ⟨[[false, true], [true, false]], false⟩ hmem rfl

/-! ## SearchNode invariants (spec §3) and expansion lemmas -/

/-- The five SearchNode invariants of spec §3 (plus the structural facts
`color.length = n`, `next ≤ n`, `tot_colors ≤ next` they presuppose). -/
structure WF (g : graph) (s : solution) : Prop where
  len : s.color.length = g.dim
  next_le : s.next ≤ g.dim
  tot_le : s.tot_colors ≤ s.next
  assigned_pos : ∀ i, i < s.next → 1 ≤ s.color.getD i 0
  assigned_le : ∀ i, i < s.next → s.color.getD i 0 ≤ s.tot_colors
  unassigned : ∀ i, s.next ≤ i → s.color.getD i 0 = 0
  proper : ∀ i j, i < s.next → j < s.next → g.m i j = true →
    s.color.getD i 0 ≠ s.color.getD j 0
  max_wit : s.tot_colors = 0 ∨ ∃ i, i < s.next ∧ s.color.getD i 0 = s.tot_colors

theorem WF_empty (g : graph) : WF g (emptySolution g) := by
  refine ⟨by simp [emptySolution], Nat.zero_le _, le_rfl, ?_, ?_, ?_, ?_, Or.inl rfl⟩
  · intro i hi
    exact absurd hi (Nat.not_lt_zero i)
  · intro i hi
    exact absurd hi (Nat.not_lt_zero i)
  · intro i _
    unfold emptySolution
    simp only
    rw [getD_replicate_ite]
    split_ifs <;> rfl
  · intro i j hi _ _
    exact absurd hi (Nat.not_lt_zero i)

theorem is_final_iff (g : graph) (s : solution) : s.is_final g = true ↔ s.next = g.dim := by
  unfold solution.is_final
  simp

theorem is_final_false_iff (g : graph) (s : solution) :
    s.is_final g = false ↔ s.next ≠ g.dim := by
  unfold solution.is_final
  simp

/-- Membership in the forbidden set. -/
theorem mem_forbidden (g : graph) (s : solution) (x : Nat) :
    x ∈ s.forbidden g ↔ ∃ j, j < s.next ∧ g.m s.next j = true ∧ s.color.getD j 0 = x := by
  unfold solution.forbidden
  simp only [List.mem_map, List.mem_filter, List.mem_range]
  constructor
  · rintro ⟨j, ⟨hj, hadj⟩, rfl⟩
    exact ⟨j, hj, hadj, rfl⟩
  · rintro ⟨j, hj, hadj, rfl⟩
    exact ⟨j, ⟨hj, hadj⟩, rfl⟩

/-- Membership characterization of the expansion (spec §4.2 steps 2-3). -/
theorem mem_get_next (g : graph) (ub : Nat) (s v : solution) :
    v ∈ s.get_next g ub ↔
      (∃ c, 1 ≤ c ∧ c ≤ s.tot_colors ∧ c ∉ s.forbidden g ∧ v = mkChild s c s.tot_colors) ∨
      (s.tot_colors + 1 ≤ ub - 1 ∧ v = mkChild s (s.tot_colors + 1) (s.tot_colors + 1)) := by
  unfold solution.get_next
  simp only [List.mem_append, List.mem_map, List.mem_filter, List.mem_range'_1,
    decide_eq_true_eq]
  constructor
  · rintro (⟨c, ⟨⟨hc1, hc2⟩, hcF⟩, rfl⟩ | hmem)
    · exact Or.inl ⟨c, hc1, by omega, hcF, rfl⟩
    · split_ifs at hmem with hcond
      · rw [List.mem_singleton] at hmem
        exact Or.inr ⟨hcond, hmem⟩
      · exact absurd hmem (List.not_mem_nil v)
  · rintro (⟨c, hc1, hc2, hcF, rfl⟩ | ⟨hcond, rfl⟩)
    · exact Or.inl ⟨c, ⟨⟨hc1, by omega⟩, hcF⟩, rfl⟩
    · rw [if_pos hcond]
      exact Or.inr (List.mem_singleton.2 rfl)

theorem get_next_next (g : graph) (ub : Nat) (s v : solution) (h : v ∈ s.get_next g ub) :
    v.next = s.next + 1 := by
  rcases (mem_get_next g ub s v).1 h with ⟨c, _, _, _, rfl⟩ | ⟨_, rfl⟩ <;> rfl

theorem get_next_tot_ge (g : graph) (ub : Nat) (s v : solution) (h : v ∈ s.get_next g ub) :
    s.tot_colors ≤ v.tot_colors := by
  rcases (mem_get_next g ub s v).1 h with ⟨c, _, _, _, rfl⟩ | ⟨_, rfl⟩
  · exact le_rfl
  · exact Nat.le_succ _

/-- The expansion preserves all SearchNode invariants (needs symmetry and
irreflexivity of the adjacency relation, and a non-final parent). -/
theorem WF_get_next (g : graph) (ub : Nat) (s v : solution)
    (hsym : ∀ i j, g.m i j = g.m j i) (hirr : ∀ i, g.m i i = false)
    (hWF : WF g s) (hnf : s.next < g.dim) (h : v ∈ s.get_next g ub) : WF g v := by
  have hlen : s.next < s.color.length := by rw [hWF.len]; exact hnf
  have hgetD : ∀ c k' i, (mkChild s c k').color.getD i 0 =
      if i = s.next then c else s.color.getD i 0 := by
    intro c k' i
    unfold mkChild
    simp only
    rw [getD_set_ite]
    rcases eq_or_ne i s.next with rfl | hne
    · rw [if_pos ⟨rfl, hlen⟩, if_pos rfl]
    · rw [if_neg (by tauto), if_neg hne]
  have core : ∀ c k', 1 ≤ c → c ≤ k' → k' ≤ s.tot_colors + 1 → s.tot_colors ≤ k' →
      (∀ j, j < s.next → g.m s.next j = true → s.color.getD j 0 ≠ c) →
      ((∃ i, i < s.next ∧ s.color.getD i 0 = k') ∨ c = k') →
      WF g (mkChild s c k') := by
    intro c k' hc1 hck hk1 hk2 hforb hwit
    refine ⟨?_, ?_, ?_, ?_, ?_, ?_, ?_, ?_⟩
    · unfold mkChild
      simp only
      rw [List.length_set, hWF.len]
    · exact Nat.succ_le_of_lt hnf
    · have := hWF.tot_le
      simp only [mkChild]
      omega
    · intro i hi
      rw [hgetD]
      rcases eq_or_ne i s.next with rfl | hne
      · rw [if_pos rfl]; exact hc1
      · rw [if_neg hne]
        exact hWF.assigned_pos i (by simp only [mkChild] at hi; omega)
    · intro i hi
      rw [hgetD]
      rcases eq_or_ne i s.next with rfl | hne
      · rw [if_pos rfl]; exact hck
      · rw [if_neg hne]
        have hi' : i < s.next := by simp only [mkChild] at hi; omega
        exact le_trans (hWF.assigned_le i hi') hk2
    · intro i hi
      rw [hgetD]
      have hne : i ≠ s.next := by simp only [mkChild] at hi; omega
      rw [if_neg hne]
      exact hWF.unassigned i (by simp only [mkChild] at hi; omega)
    · intro i j hi hj hadj
      rw [hgetD, hgetD]
      simp only [mkChild] at hi hj
      rcases eq_or_ne i s.next with rfl | hne_i <;> rcases eq_or_ne j s.next with rfl | hne_j
      · rw [hirr s.next] at hadj
        cases hadj
      · rw [if_pos rfl, if_neg hne_j]
        have hj' : j < s.next := by omega
        exact fun hc => hforb j hj' hadj hc.symm
      · rw [if_neg hne_i, if_pos rfl]
        have hi' : i < s.next := by omega
        have hadj' : g.m s.next i = true := by rw [hsym]; exact hadj
        exact hforb i hi' hadj'
      · rw [if_neg hne_i, if_neg hne_j]
        exact hWF.proper i j (by omega) (by omega) hadj
    · rcases hwit with ⟨i, hi, hival⟩ | rfl
      · refine Or.inr ⟨i, by simp only [mkChild]; omega, ?_⟩
        rw [hgetD, if_neg (by omega)]
        exact hival
      · refine Or.inr ⟨s.next, by simp only [mkChild]; omega, ?_⟩
        rw [hgetD, if_pos rfl]
        rfl
  rcases (mem_get_next g ub s v).1 h with ⟨c, hc1, hc2, hcF, rfl⟩ | ⟨_, rfl⟩
  · refine core c s.tot_colors hc1 hc2 (Nat.le_succ _) le_rfl ?_ ?_
    · intro j hj hadj hc
      exact hcF ((mem_forbidden g s c).2 ⟨j, hj, hadj, hc⟩)
    · left
      rcases hWF.max_wit with h0 | hw
      · omega
      · exact hw
  · refine core (s.tot_colors + 1) (s.tot_colors + 1) (Nat.succ_le_succ (Nat.zero_le _))
      le_rfl le_rfl (Nat.le_succ _) ?_ (Or.inr rfl)
    intro j hj hadj hc
    have := hWF.assigned_le j hj
    omega

/-- The reflexive-transitive closure of the full expansion relation
(expansion under the initial bound `n + 1`, which never prunes the fresh-color
child of a well-formed non-final node): the search tree. -/
def Descend (g : graph) : solution → solution → Prop :=
  Relation.ReflTransGen (fun u v => v ∈ u.get_next g (g.dim + 1))

theorem Descend.next_mono (g : graph) (u z : solution) (h : Descend g u z) :
    u.next ≤ z.next := by
  induction h with
  | refl => exact le_rfl
  | tail hstep hmem ih => exact le_trans ih (by rw [get_next_next g _ _ _ hmem]; omega)

theorem Descend.tot_mono (g : graph) (u z : solution) (h : Descend g u z) :
    u.tot_colors ≤ z.tot_colors := by
  induction h with
  | refl => exact le_rfl
  | tail hstep hmem ih => exact le_trans ih (get_next_tot_ge g _ _ _ hmem)

/-- A final node reachable from a final node is that node itself (each expansion
step strictly increases `next`). -/
theorem Descend.final_eq (g : graph) (u z : solution) (h : Descend g u z)
    (hu : u.next = g.dim) (hz : z.next = g.dim) : u = z := by
  rcases (Relation.reflTransGen_iff_eq_or_transGen.1 h) with rfl | htrans
  · rfl
  · exfalso
    obtain ⟨v, hstep, htail⟩ := Relation.TransGen.head'_iff.1 htrans
    have h1 : v.next = u.next + 1 := get_next_next g _ _ _ hstep
    have h2 : v.next ≤ z.next := Descend.next_mono g v z htail
    omega

/-- Well-formedness propagates down the tree to any final node. -/
theorem WF_descend_final (g : graph) (u z : solution)
    (hsym : ∀ i j, g.m i j = g.m j i) (hirr : ∀ i, g.m i i = false)
    (h : Descend g u z) (hWF : WF g u) (hz : z.next = g.dim) : WF g z := by
  induction h using Relation.ReflTransGen.head_induction_on with
  | refl => exact hWF
  | head hstep htail ih =>
    rename_i u' v'
    have hv : v'.next = u'.next + 1 := get_next_next g _ _ _ hstep
    have hvz : v'.next ≤ g.dim := by
      have := Descend.next_mono g v' z htail
      omega
    exact ih (WF_get_next g _ u' v' hsym hirr hWF (by omega) hstep)

/-! ## The chromatic number (spec glossary: "χ(G) — the minimum colors needed to
properly color G") -/

/-- There is a proper coloring of `g` with `k` colors. -/
def existsColoring (g : graph) (k : Nat) : Prop :=
  ∃ c : Fin g.dim → Fin k, ∀ i j : Fin g.dim, g.m i j = true → c i ≠ c j

instance decExistsColoring (g : graph) (k : Nat) : Decidable (existsColoring g k) :=
  inferInstanceAs (Decidable (∃ c : Fin g.dim → Fin k,
    ∀ i j : Fin g.dim, g.m i j = true → c i ≠ c j))

/-- The chromatic number: the least `k ∈ [0, n]` admitting a proper coloring
(every irreflexive graph admits one with `n` colors; the default branch is never
taken for such graphs). -/
def chrom (g : graph) : Nat :=
  (((List.range' 0 (g.dim + 1)).find? (fun k => decide (existsColoring g k))).getD
    (g.dim + 1))

theorem find?_range'_least (p : Nat → Bool) :
    ∀ (n a k : Nat), (List.range' a n).find? p = some k →
      p k = true ∧ a ≤ k ∧ k < a + n ∧ ∀ j, a ≤ j → j < k → p j = false := by
  intro n
  induction n with
  | zero =>
    intro a k h
    cases h
  | succ n ih =>
    intro a k h
    rw [List.range'_succ] at h
    cases hpa : p a with
    | true =>
      rw [List.find?_cons_of_pos _ hpa] at h
      cases h
      exact ⟨hpa, le_rfl, by omega, fun j haj hjk => by omega⟩
    | false =>
      rw [List.find?_cons_of_neg _ (by simp [hpa])] at h
      obtain ⟨hk, hak, hklt, hall⟩ := ih (a + 1) k h
      refine ⟨hk, by omega, by omega, ?_⟩
      intro j haj hjk
      rcases eq_or_ne j a with rfl | hne
      · exact hpa
      · exact hall j (by omega) hjk

theorem existsColoring_dim (g : graph) (hirr : ∀ i, g.m i i = false) :
    existsColoring g g.dim := by
  refine ⟨fun i => ⟨i.val, i.isLt⟩, ?_⟩
  intro i j hadj hceq
  simp only [Fin.mk.injEq] at hceq
  have : i = j := Fin.ext hceq
  subst this
  rw [hirr i] at hadj
  cases hadj

theorem chrom_spec (g : graph) (hirr : ∀ i, g.m i i = false) :
    existsColoring g (chrom g) ∧ chrom g ≤ g.dim ∧
      ∀ j, j < chrom g → ¬ existsColoring g j := by
  have hsome : ((List.range' 0 (g.dim + 1)).find?
      (fun k => decide (existsColoring g k))).isSome := by
    rw [List.find?_isSome]
    exact ⟨g.dim, by rw [List.mem_range'_1]; omega,
      by simpa using existsColoring_dim g hirr⟩
  obtain ⟨k, hk⟩ := Option.isSome_iff_exists.1 hsome
  obtain ⟨hpk, h0k, hklt, hleast⟩ := find?_range'_least _ _ _ _ hk
  unfold chrom
  rw [hk]
  simp only [Option.getD_some]
  refine ⟨by simpa using hpk, by omega, ?_⟩
  intro j hj hex
  have hfalse := hleast j (Nat.zero_le _) hj
  rw [decide_eq_true hex] at hfalse
  cases hfalse

theorem chrom_le_of (g : graph) (hirr : ∀ i, g.m i i = false) (k : Nat)
    (hk : existsColoring g k) : chrom g ≤ k := by
  by_contra hlt
  exact (chrom_spec g hirr).2.2 k (by omega) hk

/-- Soundness: a well-formed final node yields a proper coloring with
`tot_colors` colors. -/
theorem final_exists_coloring (g : graph) (z : solution)
    (hWF : WF g z) (hz : z.next = g.dim) : existsColoring g z.tot_colors := by
  refine ⟨fun i => ⟨z.color.getD i.val 0 - 1, ?_⟩, ?_⟩
  · have h1 := hWF.assigned_pos i.val (by rw [hz]; exact i.isLt)
    have h2 := hWF.assigned_le i.val (by rw [hz]; exact i.isLt)
    omega
  · intro i j hadj hceq
    simp only [Fin.mk.injEq] at hceq
    have hne := hWF.proper i.val j.val (by rw [hz]; exact i.isLt)
      (by rw [hz]; exact j.isLt) hadj
    have h1i := hWF.assigned_pos i.val (by rw [hz]; exact i.isLt)
    have h1j := hWF.assigned_pos j.val (by rw [hz]; exact j.isLt)
    omega

theorem chrom_le_final (g : graph) (z : solution) (hirr : ∀ i, g.m i i = false)
    (hWF : WF g z) (hz : z.next = g.dim) : chrom g ≤ z.tot_colors :=
  chrom_le_of g hirr _ (final_exists_coloring g z hWF hz)

/-! ## Completeness of the symmetry-breaking tree

Given any proper coloring, relabeling its colors in order of first use yields a
coloring reachable in the search tree (spec §4.2 rationale: "colors 1..k are
interchangeable up to relabeling").  `firsts c t` is the list of distinct values
among `c 0, …, c (t−1)` in order of first occurrence. -/

/-- The distinct values of `c` on `[0, t)`, in order of first occurrence. -/
def firsts (c : Nat → Nat) : Nat → List Nat
  | 0 => []
  | t + 1 => if c t ∈ firsts c t then firsts c t else firsts c t ++ [c t]

theorem firsts_prefix_succ (c : Nat → Nat) (t : Nat) :
    firsts c t <+: firsts c (t + 1) := by
  show firsts c t <+: (if c t ∈ firsts c t then firsts c t else firsts c t ++ [c t])
  split_ifs
  · exact List.prefix_rfl
  · exact List.prefix_append _ _

theorem firsts_mono (c : Nat → Nat) (t t' : Nat) (h : t ≤ t') :
    firsts c t <+: firsts c t' := by
  induction t' with
  | zero =>
    rw [Nat.le_zero.1 h]
  | succ t' ih =>
    rcases Nat.lt_or_ge t (t' + 1) with hlt | hge
    · exact (ih (by omega)).trans (firsts_prefix_succ c t')
    · rw [Nat.le_antisymm h hge]

theorem mem_firsts (c : Nat → Nat) (t : Nat) (x : Nat) :
    x ∈ firsts c t ↔ ∃ i, i < t ∧ c i = x := by
  induction t with
  | zero =>
    simp [firsts]
  | succ t ih =>
    show x ∈ (if c t ∈ firsts c t then firsts c t else firsts c t ++ [c t]) ↔ _
    split_ifs with hmem
    · rw [ih]
      constructor
      · rintro ⟨i, hi, rfl⟩
        exact ⟨i, by omega, rfl⟩
      · rintro ⟨i, hi, rfl⟩
        rcases eq_or_ne i t with rfl | hne
        · exact ih.1 hmem
        · exact ⟨i, by omega, rfl⟩
    · rw [List.mem_append, List.mem_singleton, ih]
      constructor
      · rintro (⟨i, hi, rfl⟩ | rfl)
        · exact ⟨i, by omega, rfl⟩
        · exact ⟨t, by omega, rfl⟩
      · rintro ⟨i, hi, rfl⟩
        rcases eq_or_ne i t with rfl | hne
        · exact Or.inr rfl
        · exact Or.inl ⟨i, by omega, rfl⟩

theorem firsts_nodup (c : Nat → Nat) (t : Nat) : (firsts c t).Nodup := by
  induction t with
  | zero => exact List.nodup_nil
  | succ t ih =>
    show (if c t ∈ firsts c t then firsts c t else firsts c t ++ [c t]).Nodup
    split_ifs with hmem
    · exact ih
    · rw [List.nodup_append]
      exact ⟨ih, List.nodup_singleton _, by simpa using hmem⟩

theorem firsts_length_le (c : Nat → Nat) (t : Nat) : (firsts c t).length ≤ t := by
  induction t with
  | zero => exact le_rfl
  | succ t ih =>
    show (if c t ∈ firsts c t then firsts c t else firsts c t ++ [c t]).length ≤ t + 1
    split_ifs
    · omega
    · rw [List.length_append]
      simp only [List.length_singleton]
      omega

theorem firsts_length_le_of_lt (c : Nat → Nat) (t K : Nat)
    (h : ∀ i, i < t → c i < K) : (firsts c t).length ≤ K := by
  have hsub : (firsts c t).toFinset ⊆ Finset.range K := by
    intro x hx
    rw [List.mem_toFinset, mem_firsts] at hx
    obtain ⟨i, hi, rfl⟩ := hx
    rw [Finset.mem_range]
    exact h i hi
  calc (firsts c t).length = (firsts c t).toFinset.card :=
        (List.toFinset_card_of_nodup (firsts_nodup c t)).symm
    _ ≤ (Finset.range K).card := Finset.card_le_card hsub
    _ = K := Finset.card_range K

theorem indexOf_stable (l₁ l₂ : List Nat) (x : Nat) (h : l₁ <+: l₂) (hx : x ∈ l₁) :
    l₂.indexOf x = l₁.indexOf x := by
  obtain ⟨tail, rfl⟩ := h
  exact List.indexOf_append_of_mem hx

theorem indexOf_append_self (l : List Nat) (x : Nat) (hx : x ∉ l) :
    (l ++ [x]).indexOf x = l.length := by
  induction l with
  | nil => simp
  | cons a tl ih =>
    have hxa : x ≠ a := fun hc => hx (hc ▸ List.mem_cons_self a tl)
    have hxtl : x ∉ tl := fun hc => hx (List.mem_cons_of_mem a hc)
    rw [List.cons_append, List.indexOf_cons_ne _ (Ne.symm hxa), ih hxtl,
      List.length_cons]

/-- The canonical (first-use-relabeled) color of vertex `i` under `c`, 1-based. -/
def canonColorAt (c : Nat → Nat) (i : Nat) : Nat :=
  (firsts c (i + 1)).indexOf (c i) + 1

theorem c_mem_firsts_succ (c : Nat → Nat) (i : Nat) : c i ∈ firsts c (i + 1) :=
  (mem_firsts c (i + 1) (c i)).2 ⟨i, by omega, rfl⟩

theorem c_mem_firsts (c : Nat → Nat) (i T : Nat) (h : i < T) : c i ∈ firsts c T :=
  (mem_firsts c T (c i)).2 ⟨i, h, rfl⟩

theorem canonColorAt_eq (c : Nat → Nat) (i T : Nat) (h : i < T) :
    canonColorAt c i = (firsts c T).indexOf (c i) + 1 := by
  unfold canonColorAt
  rw [indexOf_stable _ _ _ (firsts_mono c (i + 1) T (by omega)) (c_mem_firsts_succ c i)]

theorem canonColorAt_le (c : Nat → Nat) (i t : Nat) (h : i < t) :
    canonColorAt c i ≤ (firsts c t).length := by
  rw [canonColorAt_eq c i t h]
  have := List.indexOf_lt_length.2 (c_mem_firsts c i t h)
  omega

theorem canonColorAt_inj (c : Nat → Nat) (i j T : Nat) (hi : i < T) (hj : j < T)
    (h : canonColorAt c i = canonColorAt c j) : c i = c j := by
  rw [canonColorAt_eq c i T hi, canonColorAt_eq c j T hj] at h
  have h' : (firsts c T).indexOf (c i) = (firsts c T).indexOf (c j) := by omega
  have hgi := List.getElem_indexOf (List.indexOf_lt_length.2 (c_mem_firsts c i T hi))
  have hgj := List.getElem_indexOf (List.indexOf_lt_length.2 (c_mem_firsts c j T hj))
  rw [← hgi, ← hgj]
  congr 1

/-- The canonical partial solution after `t` BFS steps under coloring `c`. -/
def canonSol (g : graph) (c : Nat → Nat) (t : Nat) : solution :=
  ⟨(List.range g.dim).map (fun i => if i < t then canonColorAt c i else 0),
   (firsts c t).length, t⟩

theorem getD_map_range (f : Nat → Nat) (dim i : Nat) :
    ((List.range dim).map f).getD i 0 = if i < dim then f i else 0 := by
  rw [List.getD_eq_getElem?_getD, List.getElem?_map]
  rcases Nat.lt_or_ge i dim with h | h
  · rw [List.getElem?_range h, if_pos h]
    rfl
  · rw [List.getElem?_eq_none (by simpa using h), if_neg (by omega)]
    rfl

theorem canonSol_color_getD (g : graph) (c : Nat → Nat) (t i : Nat) :
    (canonSol g c t).color.getD i 0 =
      if i < g.dim ∧ i < t then canonColorAt c i else 0 := by
  show ((List.range g.dim).map _).getD i 0 = _
  rw [getD_map_range]
  split_ifs <;> first | rfl | tauto

theorem canonSol_color_length (g : graph) (c : Nat → Nat) (t : Nat) :
    (canonSol g c t).color.length = g.dim := by
  show ((List.range g.dim).map _).length = g.dim
  rw [List.length_map, List.length_range]

theorem canonSol_zero (g : graph) (c : Nat → Nat) :
    canonSol g c 0 = emptySolution g := by
  have hcol : (List.range g.dim).map (fun i => if i < 0 then canonColorAt c i else 0) =
      List.replicate g.dim 0 := by
    rw [List.eq_replicate_iff]
    constructor
    · simp
    · intro b hb
      obtain ⟨i, _, rfl⟩ := List.mem_map.1 hb
      rw [if_neg (by omega)]
  show (⟨_, _, _⟩ : solution) = ⟨_, _, _⟩
  rw [hcol]
  rfl

theorem canonSol_set_color (g : graph) (c : Nat → Nat) (t : Nat) (ht : t < g.dim) :
    (canonSol g c t).color.set t (canonColorAt c t) = (canonSol g c (t + 1)).color := by
  apply List.ext_getElem
  · rw [List.length_set, canonSol_color_length, canonSol_color_length]
  · intro n h₁ h₂
    have hdim : n < g.dim := by
      rw [canonSol_color_length] at h₂
      exact h₂
    rw [← List.getD_eq_getElem _ 0 h₁, ← List.getD_eq_getElem _ 0 h₂]
    rw [getD_set_ite, canonSol_color_getD, canonSol_color_getD]
    have hclen : t < (canonSol g c t).color.length := by
      rw [canonSol_color_length]
      exact ht
    rcases eq_or_ne t n with rfl | hne
    · rw [if_pos ⟨rfl, hclen⟩, if_pos ⟨hdim, by omega⟩]
    · rw [if_neg (by tauto)]
      rcases Nat.lt_or_ge n t with hnt | hnt
      · rw [if_pos ⟨hdim, hnt⟩, if_pos ⟨hdim, by omega⟩]
      · rw [if_neg (by omega), if_neg (by omega)]

theorem solution_ext (a b : solution) (h1 : a.color = b.color)
    (h2 : a.tot_colors = b.tot_colors) (h3 : a.next = b.next) : a = b := by
  cases a
  cases b
  simp_all

/-- The canonical solution at `t + 1` is a full-expansion child of the one at `t`. -/
theorem canonSol_step (g : graph) (c : Nat → Nat) (t : Nat) (ht : t < g.dim)
    (hc : ∀ i j, i < g.dim → j < g.dim → g.m i j = true → c i ≠ c j) :
    canonSol g c (t + 1) ∈ (canonSol g c t).get_next g (g.dim + 1) := by
  rw [mem_get_next]
  by_cases hmem : c t ∈ firsts c t
  · -- reuse of an existing canonical color
    have hfix : firsts c (t + 1) = firsts c t := by
      show (if c t ∈ firsts c t then firsts c t else firsts c t ++ [c t]) = firsts c t
      rw [if_pos hmem]
    left
    refine ⟨canonColorAt c t, by unfold canonColorAt; omega, ?_, ?_, ?_⟩
    · show canonColorAt c t ≤ (firsts c t).length
      exact canonColorAt_le c t (t + 1) (by omega) |>.trans (by rw [hfix])
    · intro hF
      rw [mem_forbidden] at hF
      obtain ⟨j, hj, hadj, hval⟩ := hF
      have hjt : j < t := hj
      have hjd : j < g.dim := by omega
      rw [canonSol_color_getD, if_pos ⟨hjd, hjt⟩] at hval
      have hcc : c j = c t :=
        canonColorAt_inj c j t (t + 1) (by omega) (by omega) hval
      exact hc t j ht hjd hadj hcc.symm
    · have hcol := canonSol_set_color g c t ht
      refine solution_ext _ _ hcol.symm ?_ rfl
      show (firsts c (t + 1)).length = (firsts c t).length
      rw [hfix]
  · -- a fresh canonical color k + 1
    have hfix : firsts c (t + 1) = firsts c t ++ [c t] := by
      show (if c t ∈ firsts c t then firsts c t else firsts c t ++ [c t]) = _
      rw [if_neg hmem]
    have hval : canonColorAt c t = (firsts c t).length + 1 := by
      unfold canonColorAt
      rw [hfix, indexOf_append_self _ _ hmem]
    right
    constructor
    · show (firsts c t).length + 1 ≤ g.dim + 1 - 1
      have := firsts_length_le c t
      omega
    · have hcol := canonSol_set_color g c t ht
      rw [hval] at hcol
      refine solution_ext _ _ hcol.symm ?_ rfl
      show (firsts c (t + 1)).length = (firsts c t).length + 1
      rw [hfix, List.length_append, List.length_singleton]

theorem canonical_descend (g : graph) (c : Nat → Nat)
    (hc : ∀ i j, i < g.dim → j < g.dim → g.m i j = true → c i ≠ c j) :
    ∀ t, t ≤ g.dim → Descend g (emptySolution g) (canonSol g c t) := by
  intro t
  induction t with
  | zero =>
    intro _
    rw [canonSol_zero]
    exact Relation.ReflTransGen.refl
  | succ t ih =>
    intro h
    exact Relation.ReflTransGen.tail (ih (by omega)) (canonSol_step g c t (by omega) hc)

/-- Completeness: an optimal proper coloring gives a final tree node using at most
`chrom g` colors. -/
theorem exists_optimal_final (g : graph) (hirr : ∀ i, g.m i i = false) :
    ∃ z, Descend g (emptySolution g) z ∧ z.next = g.dim ∧ z.tot_colors ≤ chrom g := by
  obtain ⟨hex, hle, -⟩ := chrom_spec g hirr
  obtain ⟨cf, hcf⟩ := hex
  refine ⟨canonSol g (fun i => if h : i < g.dim then (cf ⟨i, h⟩).val else 0) g.dim,
    canonical_descend g _ ?_ g.dim le_rfl, rfl, ?_⟩
  · intro i j hi hj hadj heq
    rw [dif_pos hi, dif_pos hj] at heq
    exact hcf ⟨i, hi⟩ ⟨j, hj⟩ hadj (Fin.ext heq)
  · exact firsts_length_le_of_lt _ _ (chrom g)
      (fun i hi => by rw [dif_pos hi]; exact (cf ⟨i, hi⟩).isLt)

/-! ## Phase A invariants

The BFS queue always holds well-formed nodes of at most two consecutive depths,
sorted by depth; as long as no final node has been popped the bound is still the
initial `n + 1` and the queue's subtrees cover every final node of the search tree.
Once a final node is popped, every queued node is final and no expansion (hence no
break) can occur any more. -/

/-- Every final tree node lies in the subtree of some queue member. -/
def Cover (g : graph) (q : List solution) : Prop :=
  ∀ z, z.next = g.dim → Descend g (emptySolution g) z → ∃ u ∈ q, Descend g u z

/-- The Phase A loop invariant. -/
structure PhaseAInv (g : graph) (q : List solution) (ub : Nat) : Prop where
  wf : ∀ s ∈ q, WF g s
  sorted : List.Pairwise (fun a b => a.next ≤ b.next) q
  span : ∀ a ∈ q, ∀ b ∈ q, a.next ≤ b.next + 1
  disj : (ub = g.dim + 1 ∧ Cover g q) ∨ (∀ s ∈ q, s.next = g.dim)

theorem phaseAInv_init (g : graph) :
    PhaseAInv g [emptySolution g] (initial_colors_ub g) := by
  refine ⟨?_, ?_, ?_, Or.inl ⟨rfl, ?_⟩⟩
  · intro s hs
    rw [List.mem_singleton] at hs
    exact hs ▸ WF_empty g
  · exact List.pairwise_singleton _ _
  · intro a ha b hb
    rw [List.mem_singleton] at ha hb
    subst ha
    subst hb
    omega
  · intro z _ hz
    exact ⟨emptySolution g, List.mem_singleton.2 rfl, hz⟩

theorem phaseAStep_more_inv (g : graph) (W : Nat) (q : List solution) (ub : Nat)
    (best : solution) (q' : List solution) (ub' : Nat) (best' : solution)
    (hsym : ∀ i j, g.m i j = g.m j i) (hirr : ∀ i, g.m i i = false)
    (h : phaseAStep g W q ub best = .more q' ub' best')
    (hinv : PhaseAInv g q ub) : PhaseAInv g q' ub' := by
  match q with
  | [] => cases h
  | curr :: rest =>
    have hcurr_wf : WF g curr := hinv.wf curr (List.mem_cons_self _ _)
    have hsorted_rest : List.Pairwise (fun a b => a.next ≤ b.next) rest :=
      (List.pairwise_cons.1 hinv.sorted).2
    have hhead_le : ∀ b ∈ rest, curr.next ≤ b.next :=
      (List.pairwise_cons.1 hinv.sorted).1
    have hspan_rest : ∀ a ∈ rest, ∀ b ∈ rest, a.next ≤ b.next + 1 :=
      fun a ha b hb => hinv.span a (List.mem_cons_of_mem _ ha) b (List.mem_cons_of_mem _ hb)
    have hwf_rest : ∀ s ∈ rest, WF g s :=
      fun s hs => hinv.wf s (List.mem_cons_of_mem _ hs)
    simp only [phaseAStep] at h
    split_ifs at h with h1 h2 h3 h4
    · -- non-final, pruned: impossible under the invariant
      exfalso
      rcases hinv.disj with ⟨hub, -⟩ | hfin
      · have := hcurr_wf.tot_le
        have := hcurr_wf.next_le
        omega
      · exact (is_final_false_iff g curr).1 h1 (hfin curr (List.mem_cons_self _ _))
    · -- non-final, expanded in place
      cases h
      have hub : ub = g.dim + 1 := by
        rcases hinv.disj with ⟨hub, -⟩ | hfin
        · exact hub
        · exact absurd (hfin curr (List.mem_cons_self _ _)) ((is_final_false_iff g curr).1 h1)
      have hnf : curr.next < g.dim := by
        have := hcurr_wf.next_le
        have := (is_final_false_iff g curr).1 h1
        omega
      have hchild_next : ∀ v ∈ curr.get_next g ub, v.next = curr.next + 1 :=
        fun v hv => get_next_next g ub curr v hv
      have hchild_wf : ∀ v ∈ curr.get_next g ub, WF g v :=
        fun v hv => WF_get_next g ub curr v hsym hirr hcurr_wf hnf hv
      refine ⟨?_, ?_, ?_, ?_⟩
      · intro s hs
        rcases List.mem_append.1 hs with hs | hs
        · exact hwf_rest s hs
        · exact hchild_wf s hs
      · rw [List.pairwise_append]
        refine ⟨hsorted_rest, ?_, ?_⟩
        · rw [List.pairwise_iff_forall_sublist]
          intro a b hab
          have ha := hab.subset (List.mem_cons_self a [b])
          have hb := hab.subset (List.mem_cons_of_mem a (List.mem_singleton.2 rfl))
          rw [hchild_next a ha, hchild_next b hb]
        · intro a ha b hb
          rw [hchild_next b hb]
          have := hinv.span a (List.mem_cons_of_mem _ ha) curr (List.mem_cons_self _ _)
          omega
      · intro a ha b hb
        rcases List.mem_append.1 ha with ha' | ha' <;> rcases List.mem_append.1 hb with hb' | hb'
        · exact hspan_rest a ha' b hb'
        · rw [hchild_next b hb']
          have := hinv.span a (List.mem_cons_of_mem _ ha') curr (List.mem_cons_self _ _)
          omega
        · rw [hchild_next a ha']
          have := hhead_le b hb'
          omega
        · rw [hchild_next a ha', hchild_next b hb']
          omega
      · left
        refine ⟨hub, ?_⟩
        rcases hinv.disj with ⟨-, hcov⟩ | hfin
        · intro z hz hdz
          obtain ⟨u₀, hu₀, hdu⟩ := hcov z hz hdz
          rcases List.mem_cons.1 hu₀ with rfl | hu₀'
          · rcases Relation.ReflTransGen.cases_head hdu with rfl | ⟨v, hv, hdvz⟩
            · exact absurd hz ((is_final_false_iff g u₀).1 h1)
            · refine ⟨v, List.mem_append.2 (Or.inr ?_), hdvz⟩
              rw [hub]
              exact hv
          · exact ⟨u₀, List.mem_append.2 (Or.inl hu₀'), hdu⟩
        · exact absurd (hfin curr (List.mem_cons_self _ _)) ((is_final_false_iff g curr).1 h1)
    · -- final, improving: the bound drops, all remaining nodes are final
      cases h
      have hfin : best'.next = g.dim := by
        have hb : best'.is_final g = true := by
          revert h1
          cases best'.is_final g <;> simp
        exact (is_final_iff g best').1 hb
      refine ⟨hwf_rest, hsorted_rest, hspan_rest, Or.inr ?_⟩
      intro s hs
      have h1' := hhead_le s hs
      have h2' := (hwf_rest s hs).next_le
      omega
    · -- final, not improving
      cases h
      have hfin : curr.next = g.dim := by
        have : curr.is_final g = true := by
          revert h1
          cases curr.is_final g <;> simp
        exact (is_final_iff g curr).1 this
      refine ⟨hwf_rest, hsorted_rest, hspan_rest, Or.inr ?_⟩
      intro s hs
      have h1' := hhead_le s hs
      have h2' := (hwf_rest s hs).next_le
      omega

theorem phaseAStep_brk_inv (g : graph) (W : Nat) (q : List solution) (ub : Nat)
    (best : solution) (q' : List solution) (ub' : Nat) (best' : solution)
    (h : phaseAStep g W q ub best = .brk q' ub' best')
    (hinv : PhaseAInv g q ub) :
    ub' = g.dim + 1 ∧ (∀ s ∈ q', WF g s) ∧ Cover g q' := by
  match q with
  | [] => cases h
  | curr :: rest =>
    simp only [phaseAStep] at h
    split_ifs at h with h1 h2 h3
    cases h
    have hub : ub = g.dim + 1 ∧ Cover g (curr :: rest) := by
      rcases hinv.disj with hok | hfin
      · exact hok
      · exact absurd (hfin curr (List.mem_cons_self _ _)) ((is_final_false_iff g curr).1 h1)
    refine ⟨hub.1, ?_, ?_⟩
    · intro s hs
      rcases List.mem_append.1 hs with hs' | hs'
      · exact hinv.wf s (List.mem_cons_of_mem _ hs')
      · rw [List.mem_singleton] at hs'
        exact hs' ▸ hinv.wf curr (List.mem_cons_self _ _)
    · intro z hz hdz
      obtain ⟨u₀, hu₀, hdu⟩ := hub.2 z hz hdz
      rcases List.mem_cons.1 hu₀ with rfl | hu₀'
      · exact ⟨u₀, List.mem_append.2 (Or.inr (List.mem_singleton.2 rfl)), hdu⟩
      · exact ⟨u₀, List.mem_append.2 (Or.inl hu₀'), hdu⟩

/-- Whenever the Phase A loop exits through the break (frontier) path, the bound is
still the initial `n + 1`, and the frontier is a well-formed cover of the tree. -/
theorem phaseALoop_frontier (g : graph) (W : Nat)
    (hsym : ∀ i j, g.m i j = g.m j i) (hirr : ∀ i, g.m i i = false) :
    ∀ fuel (q : List solution) (ub : Nat) (best : solution) (F : List solution)
      (ub' : Nat) (best' : solution),
      PhaseAInv g q ub →
      phaseALoop g W fuel q ub best = some (.frontier F ub' best') →
      ub' = g.dim + 1 ∧ (∀ s ∈ F, WF g s) ∧ Cover g F := by
  intro fuel
  induction fuel with
  | zero =>
    intro q ub best F ub' best' hinv h
    unfold phaseALoop at h
    cases hstep : phaseAStep g W q ub best with
    | empty ub2 best2 => rw [hstep] at h; cases h
    | brk q2 ub2 best2 =>
      rw [hstep] at h
      cases h
      exact phaseAStep_brk_inv g W q ub best _ _ _ hstep hinv
    | more q2 ub2 best2 => rw [hstep] at h; cases h
  | succ fuel ih =>
    intro q ub best F ub' best' hinv h
    unfold phaseALoop at h
    cases hstep : phaseAStep g W q ub best with
    | empty ub2 best2 => rw [hstep] at h; cases h
    | brk q2 ub2 best2 =>
      rw [hstep] at h
      cases h
      exact phaseAStep_brk_inv g W q ub best _ _ _ hstep hinv
    | more q2 ub2 best2 =>
      rw [hstep] at h
      exact ih q2 ub2 best2 F ub' best'
        (phaseAStep_more_inv g W q ub best _ _ _ hsym hirr hstep hinv) h

/-! ## The distributed Phase B/C execution, as an abstract transition system

After dispatch, the system consists of the workers' DFS loops (`main.cpp` lines
178-205), the coordinator listener (`listen_for_ub_updates_from_workers`), and the
bound broadcasts.  The model makes each loop iteration atomic and collapses the
per-process state into:

* `pool`  — the union of all workers' stacks (a worker pops any member; stack
  order within one worker does not affect the set of explored nodes);
* `sent`  — improvement messages sent to rank 0 and not yet received;
* `recvd` — improvement messages the coordinator listener has processed;
* `ub`, `best` — the coordinator's `colors_ub` and the listener's `best`.

A pruning decision of a worker compares against that worker's local `colors_ub`
at some moment.  Every value any local `colors_ub` ever holds is either the
initial `n + 1` or the `tot_colors` of some improvement that was sent
(a worker's own find, or a coordinator broadcast of a received find, both of
which appear in `sent ++ recvd` from the moment of sending on); `ValidBound`
over-approximates exactly this set, so every behavior of the code is a behavior
of the model.  Since two separate reads of the bound occur in one worker
iteration (the prune test and `get_next`), the expansion step takes two
independently valid bounds.  Termination of the run (`pool = [] ∧ sent = []`)
uses the per-pair FIFO guarantee of the transport: each worker's improvement
messages are received before its `DONE`, hence before the listener loop exits. -/

/-- The collapsed state of the distributed phase. -/
structure BBState where
  pool : List solution
  sent : List solution
  recvd : List solution
  ub : Nat
  best : solution
deriving DecidableEq

/-- `b` is a value some process's `colors_ub` may currently hold: the initial
bound or the `tot_colors` of an already-sent improvement. -/
def ValidBound (g : graph) (st : BBState) (b : Nat) : Prop :=
  b = g.dim + 1 ∨ ∃ s, (s ∈ st.sent ∨ s ∈ st.recvd) ∧ s.tot_colors = b

/-- One atomic step of the distributed phase. -/
inductive BBStep (g : graph) : BBState → BBState → Prop
  | popFinal (st : BBState) (l r : List solution) (u : solution) (b : Nat)
      (hpool : st.pool = l ++ u :: r) (hfin : u.is_final g = true)
      (hb : ValidBound g st b) (hlt : u.tot_colors < b) :
      BBStep g st ⟨l ++ r, st.sent ++ [u], st.recvd, st.ub, st.best⟩
  | popFinalSkip (st : BBState) (l r : List solution) (u : solution) (b : Nat)
      (hpool : st.pool = l ++ u :: r) (hfin : u.is_final g = true)
      (hb : ValidBound g st b) (hge : b ≤ u.tot_colors) :
      BBStep g st ⟨l ++ r, st.sent, st.recvd, st.ub, st.best⟩
  | popPrune (st : BBState) (l r : List solution) (u : solution) (b : Nat)
      (hpool : st.pool = l ++ u :: r) (hfin : u.is_final g = false)
      (hb : ValidBound g st b) (hge : b ≤ u.tot_colors) :
      BBStep g st ⟨l ++ r, st.sent, st.recvd, st.ub, st.best⟩
  | popExpand (st : BBState) (l r : List solution) (u : solution) (b₁ b₂ : Nat)
      (hpool : st.pool = l ++ u :: r) (hfin : u.is_final g = false)
      (hb₁ : ValidBound g st b₁) (hlt : u.tot_colors < b₁)
      (hb₂ : ValidBound g st b₂) :
      BBStep g st ⟨l ++ u.get_next g b₂ ++ r, st.sent, st.recvd, st.ub, st.best⟩
  | recvImprove (st : BBState) (l r : List solution) (s : solution)
      (hsent : st.sent = l ++ s :: r) (hlt : s.tot_colors < st.ub) :
      BBStep g st ⟨st.pool, l ++ r, s :: st.recvd, s.tot_colors, s⟩
  | recvSkip (st : BBState) (l r : List solution) (s : solution)
      (hsent : st.sent = l ++ s :: r) (hge : st.ub ≤ s.tot_colors) :
      BBStep g st ⟨st.pool, l ++ r, s :: st.recvd, st.ub, st.best⟩

/-- Multi-step reachability of the distributed phase. -/
def BBReaches (g : graph) : BBState → BBState → Prop :=
  Relation.ReflTransGen (BBStep g)

/-- The state right after Phase B dispatch: the Phase A frontier is distributed
over the workers' stacks, no message is in flight, and the coordinator holds the
bound `ub0` left by Phase A and a default-constructed `best`. -/
def initBB (g : graph) (F : List solution) (ub0 : Nat) : BBState :=
  ⟨F, [], [], ub0, emptySolution g⟩

/-- The invariant of the distributed phase. -/
structure BBInv (g : graph) (st : BBState) : Prop where
  poolWF : ∀ s ∈ st.pool, WF g s
  msgWF : ∀ s, s ∈ st.sent ∨ s ∈ st.recvd → WF g s ∧ s.next = g.dim
  cover : ∀ z, z.next = g.dim → Descend g (emptySolution g) z →
    (∃ u ∈ st.pool, Descend g u z) ∨
    (∃ s, (s ∈ st.sent ∨ s ∈ st.recvd) ∧ s.tot_colors ≤ z.tot_colors)
  bestInv : (st.ub = g.dim + 1 ∧ st.recvd = []) ∨
    (st.best ∈ st.recvd ∧ st.best.tot_colors = st.ub ∧
      ∀ r ∈ st.recvd, st.ub ≤ r.tot_colors)

theorem BBInv_init (g : graph) (F : List solution)
    (hwf : ∀ s ∈ F, WF g s) (hcov : Cover g F) :
    BBInv g (initBB g F (g.dim + 1)) := by
  refine ⟨hwf, ?_, ?_, Or.inl ⟨rfl, rfl⟩⟩
  · intro s hs
    rcases hs with hs | hs <;> cases hs
  · intro z hz hdz
    obtain ⟨u, hu, hdu⟩ := hcov z hz hdz
    exact Or.inl ⟨u, hu, hdu⟩

/-- A valid bound other than the initial `n + 1` is witnessed by a sent final
solution; in particular it is at most `n`. -/
theorem validBound_le (g : graph) (st : BBState) (b : Nat)
    (hinv : BBInv g st) (hb : ValidBound g st b) :
    b = g.dim + 1 ∨ (b ≤ g.dim ∧ ∃ s, (s ∈ st.sent ∨ s ∈ st.recvd) ∧ s.tot_colors = b) := by
  rcases hb with rfl | ⟨s, hs, rfl⟩
  · exact Or.inl rfl
  · right
    obtain ⟨hwf, hnext⟩ := hinv.msgWF s hs
    have h1 := hwf.tot_le
    have h2 := hwf.next_le
    exact ⟨by omega, s, hs, rfl⟩

theorem mem_middle {α : Type} (a u : α) (l r : List α) :
    a ∈ l ++ u :: r ↔ a ∈ l ++ r ∨ a = u := by
  simp only [List.mem_append, List.mem_cons]
  tauto

/-- One step of the distributed phase preserves the invariant. -/
theorem BBStep_inv (g : graph) (st st' : BBState)
    (hsym : ∀ i j, g.m i j = g.m j i) (hirr : ∀ i, g.m i i = false)
    (hstep : BBStep g st st') (hinv : BBInv g st) : BBInv g st' := by
  cases hstep with
  | popFinal l r u b hpool hfin hb hlt =>
    have huWF : WF g u := hinv.poolWF u (by rw [hpool]; exact (mem_middle u u l r).2 (Or.inr rfl))
    have hunext : u.next = g.dim := (is_final_iff g u).1 hfin
    refine ⟨?_, ?_, ?_, ?_⟩
    · intro s hs
      exact hinv.poolWF s (by rw [hpool]; exact (mem_middle s u l r).2 (Or.inl hs))
    · intro s hs
      simp only [List.mem_append, List.mem_singleton] at hs
      rcases hs with (hs | rfl) | hs
      · exact hinv.msgWF s (Or.inl hs)
      · exact ⟨huWF, hunext⟩
      · exact hinv.msgWF s (Or.inr hs)
    · intro z hz hdz
      rcases hinv.cover z hz hdz with ⟨u₀, hu₀, hdu⟩ | ⟨s, hs, hle⟩
      · rw [hpool] at hu₀
        rcases (mem_middle u₀ u l r).1 hu₀ with hu₀' | rfl
        · exact Or.inl ⟨u₀, hu₀', hdu⟩
        · right
          have hz' : z = u₀ := (Descend.final_eq g u₀ z hdu hunext hz).symm
          refine ⟨u₀, Or.inl ?_, by rw [hz']⟩
          simp
      · refine Or.inr ⟨s, ?_, hle⟩
        rcases hs with hs | hs
        · exact Or.inl (by simp [hs])
        · exact Or.inr hs
    · rcases hinv.bestInv with ⟨hub, hrecvd⟩ | ⟨hmem, htot, hall⟩
      · exact Or.inl ⟨hub, hrecvd⟩
      · exact Or.inr ⟨hmem, htot, hall⟩
  | popFinalSkip l r u b hpool hfin hb hge =>
    have huWF : WF g u := hinv.poolWF u (by rw [hpool]; exact (mem_middle u u l r).2 (Or.inr rfl))
    have hunext : u.next = g.dim := (is_final_iff g u).1 hfin
    refine ⟨?_, ?_, ?_, ?_⟩
    · intro s hs
      exact hinv.poolWF s (by rw [hpool]; exact (mem_middle s u l r).2 (Or.inl hs))
    · exact hinv.msgWF
    · intro z hz hdz
      rcases hinv.cover z hz hdz with ⟨u₀, hu₀, hdu⟩ | ⟨s, hs, hle⟩
      · rw [hpool] at hu₀
        rcases (mem_middle u₀ u l r).1 hu₀ with hu₀' | rfl
        · exact Or.inl ⟨u₀, hu₀', hdu⟩
        · right
          have hz' : z = u₀ := (Descend.final_eq g u₀ z hdu hunext hz).symm
          rcases validBound_le g st b hinv hb with rfl | ⟨hble, s, hs, hstot⟩
          · exfalso
            have h1 := huWF.tot_le
            have h2 := huWF.next_le
            omega
          · exact ⟨s, hs, by rw [hz']; omega⟩
      · exact Or.inr ⟨s, hs, hle⟩
    · exact hinv.bestInv
  | popPrune l r u b hpool hfin hb hge =>
    have huWF : WF g u := hinv.poolWF u (by rw [hpool]; exact (mem_middle u u l r).2 (Or.inr rfl))
    refine ⟨?_, ?_, ?_, ?_⟩
    · intro s hs
      exact hinv.poolWF s (by rw [hpool]; exact (mem_middle s u l r).2 (Or.inl hs))
    · exact hinv.msgWF
    · intro z hz hdz
      rcases hinv.cover z hz hdz with ⟨u₀, hu₀, hdu⟩ | ⟨s, hs, hle⟩
      · rw [hpool] at hu₀
        rcases (mem_middle u₀ u l r).1 hu₀ with hu₀' | rfl
        · exact Or.inl ⟨u₀, hu₀', hdu⟩
        · right
          have hzt : u₀.tot_colors ≤ z.tot_colors := Descend.tot_mono g u₀ z hdu
          rcases validBound_le g st b hinv hb with rfl | ⟨hble, s, hs, hstot⟩
          · exfalso
            have h1 := huWF.tot_le
            have h2 := huWF.next_le
            omega
          · exact ⟨s, hs, by omega⟩
      · exact Or.inr ⟨s, hs, hle⟩
    · exact hinv.bestInv
  | popExpand l r u b₁ b₂ hpool hfin hb₁ hlt hb₂ =>
    have huWF : WF g u := hinv.poolWF u (by rw [hpool]; exact (mem_middle u u l r).2 (Or.inr rfl))
    have hnf : u.next < g.dim := by
      have h1 := huWF.next_le
      have h2 := (is_final_false_iff g u).1 hfin
      omega
    refine ⟨?_, ?_, ?_, ?_⟩
    · intro s hs
      simp only [List.mem_append] at hs
      rcases hs with (hs | hs) | hs
      · exact hinv.poolWF s
          (by rw [hpool]; exact (mem_middle s u l r).2 (Or.inl (List.mem_append.2 (Or.inl hs))))
      · exact WF_get_next g b₂ u s hsym hirr huWF hnf hs
      · exact hinv.poolWF s
          (by rw [hpool]; exact (mem_middle s u l r).2 (Or.inl (List.mem_append.2 (Or.inr hs))))
    · exact hinv.msgWF
    · intro z hz hdz
      rcases hinv.cover z hz hdz with ⟨u₀, hu₀, hdu⟩ | ⟨s, hs, hle⟩
      · rw [hpool] at hu₀
        rcases (mem_middle u₀ u l r).1 hu₀ with hu₀' | rfl
        · refine Or.inl ⟨u₀, ?_, hdu⟩
          simp only [List.mem_append] at hu₀' ⊢
          tauto
        · rcases Relation.ReflTransGen.cases_head hdu with rfl | ⟨v, hv, hdvz⟩
          · exfalso
            exact (is_final_false_iff g u₀).1 hfin hz
          · rcases (mem_get_next g (g.dim + 1) u₀ v).1 hv with
              ⟨c, hc1, hc2, hcF, rfl⟩ | ⟨hcond, rfl⟩
            · refine Or.inl ⟨mkChild u₀ c u₀.tot_colors, ?_, hdvz⟩
              simp only [List.mem_append]
              exact Or.inl (Or.inr ((mem_get_next g b₂ u₀ _).2
                (Or.inl ⟨c, hc1, hc2, hcF, rfl⟩)))
            · by_cases hfits : u₀.tot_colors + 1 ≤ b₂ - 1
              · refine Or.inl ⟨mkChild u₀ (u₀.tot_colors + 1) (u₀.tot_colors + 1), ?_, hdvz⟩
                simp only [List.mem_append]
                exact Or.inl (Or.inr ((mem_get_next g b₂ u₀ _).2 (Or.inr ⟨hfits, rfl⟩)))
              · right
                have hzt : u₀.tot_colors + 1 ≤ z.tot_colors := by
                  have := Descend.tot_mono g _ z hdvz
                  simpa [mkChild] using this
                rcases validBound_le g st b₂ hinv hb₂ with rfl | ⟨hble, s, hs, hstot⟩
                · exfalso
                  have h1 := huWF.tot_le
                  omega
                · exact ⟨s, hs, by omega⟩
      · exact Or.inr ⟨s, hs, hle⟩
    · exact hinv.bestInv
  | recvImprove l r s hsent hlt =>
    have hsmem : s ∈ st.sent := by rw [hsent]; exact (mem_middle s s l r).2 (Or.inr rfl)
    refine ⟨hinv.poolWF, ?_, ?_, ?_⟩
    · intro x hx
      simp only [List.mem_cons] at hx
      rcases hx with hx | rfl | hx
      · exact hinv.msgWF x (Or.inl (by rw [hsent]; exact (mem_middle x s l r).2 (Or.inl hx)))
      · exact hinv.msgWF x (Or.inl hsmem)
      · exact hinv.msgWF x (Or.inr hx)
    · intro z hz hdz
      rcases hinv.cover z hz hdz with ⟨u₀, hu₀, hdu⟩ | ⟨x, hx, hle⟩
      · exact Or.inl ⟨u₀, hu₀, hdu⟩
      · refine Or.inr ⟨x, ?_, hle⟩
        rcases hx with hx | hx
        · rw [hsent] at hx
          rcases (mem_middle x s l r).1 hx with hx' | rfl
          · exact Or.inl hx'
          · exact Or.inr (List.mem_cons_self _ _)
        · exact Or.inr (List.mem_cons_of_mem _ hx)
    · refine Or.inr ⟨List.mem_cons_self _ _, rfl, ?_⟩
      intro x hx
      rcases List.mem_cons.1 hx with rfl | hx
      · exact le_rfl
      · rcases hinv.bestInv with ⟨hub, hrecvd⟩ | ⟨hmem, htot, hall⟩
        · rw [hrecvd] at hx
          cases hx
        · have := hall x hx
          show s.tot_colors ≤ x.tot_colors
          omega
  | recvSkip l r s hsent hge =>
    have hsmem : s ∈ st.sent := by rw [hsent]; exact (mem_middle s s l r).2 (Or.inr rfl)
    have hsWF := hinv.msgWF s (Or.inl hsmem)
    have hbest : st.best ∈ st.recvd ∧ st.best.tot_colors = st.ub ∧
        ∀ r ∈ st.recvd, st.ub ≤ r.tot_colors := by
      rcases hinv.bestInv with ⟨hub, hrecvd⟩ | hok
      · exfalso
        have h1 := hsWF.1.tot_le
        have h2 := hsWF.1.next_le
        omega
      · exact hok
    refine ⟨hinv.poolWF, ?_, ?_, ?_⟩
    · intro x hx
      simp only [List.mem_cons] at hx
      rcases hx with hx | rfl | hx
      · exact hinv.msgWF x (Or.inl (by rw [hsent]; exact (mem_middle x s l r).2 (Or.inl hx)))
      · exact hinv.msgWF x (Or.inl hsmem)
      · exact hinv.msgWF x (Or.inr hx)
    · intro z hz hdz
      rcases hinv.cover z hz hdz with ⟨u₀, hu₀, hdu⟩ | ⟨x, hx, hle⟩
      · exact Or.inl ⟨u₀, hu₀, hdu⟩
      · refine Or.inr ⟨x, ?_, hle⟩
        rcases hx with hx | hx
        · rw [hsent] at hx
          rcases (mem_middle x s l r).1 hx with hx' | rfl
          · exact Or.inl hx'
          · exact Or.inr (List.mem_cons_self _ _)
        · exact Or.inr (List.mem_cons_of_mem _ hx)
    · refine Or.inr ⟨List.mem_cons_of_mem _ hbest.1, hbest.2.1, ?_⟩
      intro x hx
      rcases List.mem_cons.1 hx with rfl | hx
      · exact hge
      · exact hbest.2.2 x hx

/-- The invariant holds in every reachable state. -/
theorem BBReaches_inv (g : graph) (st st' : BBState)
    (hsym : ∀ i j, g.m i j = g.m j i) (hirr : ∀ i, g.m i i = false)
    (h : BBReaches g st st') (hinv : BBInv g st) : BBInv g st' := by
  induction h with
  | refl => exact hinv
  | tail hr hs ih => exact BBStep_inv g _ _ hsym hirr hs ih

/-- At the end of the run (all stacks empty, all messages delivered), the
coordinator's `best` is a well-formed final node using exactly `chrom g` colors. -/
theorem BB_terminal (g : graph) (st : BBState)
    (hirr : ∀ i, g.m i i = false)
    (hinv : BBInv g st) (hpool : st.pool = []) (hsent : st.sent = []) :
    WF g st.best ∧ st.best.next = g.dim ∧ st.best.tot_colors = chrom g := by
  obtain ⟨z₀, hdz, hz₀, hle⟩ := exists_optimal_final g hirr
  rcases hinv.cover z₀ hz₀ hdz with ⟨u, hu, -⟩ | ⟨s, hs, hsle⟩
  · rw [hpool] at hu
    cases hu
  · have hs' : s ∈ st.recvd := by
      rcases hs with hs | hs
      · rw [hsent] at hs
        cases hs
      · exact hs
    rcases hinv.bestInv with ⟨-, hrecvd⟩ | ⟨hmem, htot, hall⟩
    · rw [hrecvd] at hs'
      cases hs'
    · have hbWF := hinv.msgWF st.best (Or.inr hmem)
      have hub_le : st.ub ≤ chrom g := le_trans (hall s hs') (le_trans hsle hle)
      have hchrom_le : chrom g ≤ st.best.tot_colors :=
        chrom_le_final g st.best hirr hbWF.1 hbWF.2
      exact ⟨hbWF.1, hbWF.2, by omega⟩

/-- Cast the target state of a step along a (decidable) state equality. -/
theorem BBStep_cast (g : graph) (a b b' : BBState) (h : BBStep g a b) (heq : b = b') :
    BBStep g a b' := heq ▸ h

/-- C1: for every symmetric irreflexive input graph, whenever Phase A hands a
frontier to Phase B (the parallel path) and the distributed phase runs to
completion — all worker stacks exhausted and all improvement messages processed —
the incumbent the coordinator then reports is a complete proper coloring of the
graph whose `tot_colors` equals the chromatic number `chrom g`. -/
theorem C1_reported_optimum (g : graph) (W fuel : Nat) (F : List solution)
    (ub0 : Nat) (best0 : solution) (st : BBState)
    (hsym : ∀ i j, g.m i j = g.m j i) (hirr : ∀ i, g.m i i = false)
    (hA : phaseARun g W fuel = some (.frontier F ub0 best0))
    (hR : BBReaches g (initBB g F ub0) st)
    (hpool : st.pool = []) (hsent : st.sent = []) :
    (st.best.next = g.dim ∧ st.best.color.length = g.dim ∧
      (∀ i, i < g.dim → 1 ≤ st.best.color.getD i 0 ∧
        st.best.color.getD i 0 ≤ st.best.tot_colors) ∧
      (∀ i j, i < g.dim → j < g.dim → g.m i j = true →
        st.best.color.getD i 0 ≠ st.best.color.getD j 0)) ∧
    st.best.tot_colors = chrom g := by
  obtain ⟨hub0, hWFF, hcovF⟩ := phaseALoop_frontier g W hsym hirr fuel _ _ _ F ub0 best0
    (phaseAInv_init g) hA
  subst hub0
  have hinv := BBReaches_inv g _ st hsym hirr hR (BBInv_init g F hWFF hcovF)
  obtain ⟨hWFb, hnext, htot⟩ := BB_terminal g st hirr hinv hpool hsent
  refine ⟨⟨hnext, hWFb.len, ?_, ?_⟩, htot⟩
  · intro i hi
    exact ⟨hWFb.assigned_pos i (by rw [hnext]; exact hi),
      hWFb.assigned_le i (by rw [hnext]; exact hi)⟩
  · intro i j hi hj hadj
    exact hWFb.proper i j (by rw [hnext]; exact hi) (by rw [hnext]; exact hj) hadj

theorem C1_reported_optimum_witness :
    (((⟨[1, 1], 1, 2⟩ : solution).next = gEmpty2.dim ∧
      (⟨[1, 1], 1, 2⟩ : solution).color.length = gEmpty2.dim ∧
      (∀ i, i < gEmpty2.dim → 1 ≤ (⟨[1, 1], 1, 2⟩ : solution).color.getD i 0 ∧
        (⟨[1, 1], 1, 2⟩ : solution).color.getD i 0 ≤
          (⟨[1, 1], 1, 2⟩ : solution).tot_colors) ∧
      (∀ i j, i < gEmpty2.dim → j < gEmpty2.dim → gEmpty2.m i j = true →
        (⟨[1, 1], 1, 2⟩ : solution).color.getD i 0 ≠
          (⟨[1, 1], 1, 2⟩ : solution).color.getD j 0)) ∧
      (⟨[1, 1], 1, 2⟩ : solution).tot_colors = chrom gEmpty2) ∧
    chrom gEmpty2 = 1 := by
  constructor
  · refine C1_reported_optimum gEmpty2 1 20 [⟨[1, 0], 1, 1⟩] 3 (emptySolution gEmpty2)
      ⟨[], [], [⟨[1, 1], 1, 2⟩], 1, ⟨[1, 1], 1, 2⟩⟩
      (fun i j => rfl) (fun i => rfl) (by decide) ?_ rfl rfl
    refine Relation.ReflTransGen.head
      (b := ⟨[⟨[1, 1], 1, 2⟩, ⟨[1, 2], 2, 2⟩], [], [], 3, emptySolution gEmpty2⟩) ?_ ?_
    · exact BBStep_cast gEmpty2 _ _ _
        (BBStep.popExpand ⟨[⟨[1, 0], 1, 1⟩], [], [], 3, emptySolution gEmpty2⟩
          [] [] ⟨[1, 0], 1, 1⟩ 3 3 rfl (by decide) (Or.inl rfl) (by decide) (Or.inl rfl))
        (by decide)
    refine Relation.ReflTransGen.head
      (b := ⟨[⟨[1, 2], 2, 2⟩], [⟨[1, 1], 1, 2⟩], [], 3, emptySolution gEmpty2⟩) ?_ ?_
    · exact BBStep_cast gEmpty2 _ _ _
        (BBStep.popFinal ⟨[⟨[1, 1], 1, 2⟩, ⟨[1, 2], 2, 2⟩], [], [], 3, emptySolution gEmpty2⟩
          [] [⟨[1, 2], 2, 2⟩] ⟨[1, 1], 1, 2⟩ 3 rfl (by decide) (Or.inl rfl) (by decide))
        (by decide)
    refine Relation.ReflTransGen.head
      (b := ⟨[⟨[1, 2], 2, 2⟩], [], [⟨[1, 1], 1, 2⟩], 1, ⟨[1, 1], 1, 2⟩⟩) ?_ ?_
    · exact BBStep_cast gEmpty2 _ _ _
        (BBStep.recvImprove ⟨[⟨[1, 2], 2, 2⟩], [⟨[1, 1], 1, 2⟩], [], 3, emptySolution gEmpty2⟩
          [] [] ⟨[1, 1], 1, 2⟩ rfl (by decide))
        (by decide)
    refine Relation.ReflTransGen.head
      (b := ⟨[], [], [⟨[1, 1], 1, 2⟩], 1, ⟨[1, 1], 1, 2⟩⟩) ?_ Relation.ReflTransGen.refl
    exact BBStep_cast gEmpty2 _ _ _
      (BBStep.popFinalSkip ⟨[⟨[1, 2], 2, 2⟩], [], [⟨[1, 1], 1, 2⟩], 1, ⟨[1, 1], 1, 2⟩⟩
        [] [] ⟨[1, 2], 2, 2⟩ 1 rfl (by decide)
        (Or.inr ⟨⟨[1, 1], 1, 2⟩, Or.inr (List.mem_singleton.2 rfl), rfl⟩) (by decide))
      (by decide)
  · decide

end GC
